import Mathlib

/-!
Shallow embedding of the `rust-lexer` repository (src/src/lib.rs and
src/src/token.rs) and proofs about it.

The Rust scanner stores the input as a `&str` (UTF-8 bytes) but mixes two
addressing schemes: the bound check in `read_char` compares the cursor
against `input.len()` (a BYTE count), while the character fetched is
`input.chars().nth(read_position)` (a CHARACTER index), and the literal
slices `input[position..self.position]` are BYTE-indexed with these
character-count positions.  The embedding keeps the input as a `List Char`
and models the byte arithmetic explicitly: `utf8Len` is the UTF-8 byte
length of a character list and `byteSlice` is Rust string slicing, which
fails (panics) when an index is not on a character boundary.

Fallible steps (the `.unwrap()` in `read_char`, the byte slices, and the
while loops, which are given fuel strictly larger than any possible
iteration count from a reachable state) return `Option`; `none` models a
panic.  The iterator protocol is modelled by `Lexer.next` returning
`Option (Option (Token × Lexer))`: the outer level is panic, the inner
`none` is exhaustion (Rust `None`).
-/

namespace RustLexer

/-- Model of Rust `char::is_whitespace`: the Unicode White_Space property.
The White_Space set is finite and is reproduced here in full. -/
def rustIsWhitespace (c : Char) : Bool :=
  (0x09 ≤ c.toNat && c.toNat ≤ 0x0D) || c.toNat == 0x20 || c.toNat == 0x85 ||
  c.toNat == 0xA0 || c.toNat == 0x1680 ||
  (0x2000 ≤ c.toNat && c.toNat ≤ 0x200A) || c.toNat == 0x2028 ||
  c.toNat == 0x2029 || c.toNat == 0x202F || c.toNat == 0x205F ||
  c.toNat == 0x3000

/-- Model of Rust `char::is_alphabetic` (the Unicode Alphabetic property),
restricted to the Basic Latin and Latin-1 Supplement blocks; code points
above U+00FF are classified as non-alphabetic in this model.  On ASCII the
model is exact, and every concrete non-ASCII character used in this
development (U+00E9, U+20AC, U+2028) is classified as in Unicode. -/
def rustIsAlphabetic (c : Char) : Bool :=
  (0x41 ≤ c.toNat && c.toNat ≤ 0x5A) || (0x61 ≤ c.toNat && c.toNat ≤ 0x7A) ||
  c.toNat == 0xAA || c.toNat == 0xB5 || c.toNat == 0xBA ||
  (0xC0 ≤ c.toNat && c.toNat ≤ 0xD6) || (0xD8 ≤ c.toNat && c.toNat ≤ 0xF6) ||
  (0xF8 ≤ c.toNat && c.toNat ≤ 0xFF)

/-- Model of Rust `char::is_ascii_digit`. -/
def isAsciiDigit (c : Char) : Bool :=
  0x30 ≤ c.toNat && c.toNat ≤ 0x39

/-- The character predicate of `Lexer::is_letter`:
`self.ch.is_alphabetic() || self.ch == '_'`. -/
def isLetterChar (c : Char) : Bool :=
  rustIsAlphabetic c || c == '_'

/-- UTF-8 byte length of a character list; models Rust `str::len`. -/
def utf8Len (l : List Char) : Nat :=
  (l.map Char.utf8Size).sum

/-- Drop the characters occupying the first `n` bytes; `none` when `n` is
not on a character boundary or exceeds the byte length.  Building block of
Rust byte-indexed string slicing. -/
def dropBytes : List Char → Nat → Option (List Char)
  | l, 0 => some l
  | [], _ + 1 => none
  | c :: cs, n + 1 =>
    if c.utf8Size ≤ n + 1 then dropBytes cs (n + 1 - c.utf8Size) else none

/-- Take the characters occupying the first `n` bytes; `none` when `n` is
not on a character boundary or exceeds the byte length. -/
def takeBytes : List Char → Nat → Option (List Char)
  | _, 0 => some []
  | [], _ + 1 => none
  | c :: cs, n + 1 =>
    if c.utf8Size ≤ n + 1 then (takeBytes cs (n + 1 - c.utf8Size)).map (c :: ·)
    else none

/-- Model of Rust `&s[a..b]` on a UTF-8 string: the characters between byte
offsets `a` and `b`; `none` (panic) when `a > b`, when `b` exceeds the byte
length, or when either offset is not a character boundary. -/
def byteSlice (l : List Char) (a b : Nat) : Option (List Char) :=
  if a ≤ b then (dropBytes l a).bind (fun l2 => takeBytes l2 (b - a)) else none

/-- src/src/token.rs `LiteralKind`. -/
inductive LiteralKind where
  | Bool
  | Int
  | Float
  | Char
  | Str
deriving DecidableEq, Repr

/-- src/src/token.rs `TokenKind`. -/
inductive TokenKind where
  | WhiteSpace
  | Ident
  | Literal (kind : LiteralKind)
  | Semi
  | Comma
  | Dot
  | OpenParen
  | CloseParen
  | OpenBrace
  | CloseBrace
  | OpenBracket
  | CloseBracket
  | At
  | Pound
  | Tilde
  | Question
  | Colon
  | Dollar
  | Eq
  | Bang
  | Lt
  | Gt
  | Minus
  | And
  | Or
  | Plus
  | Star
  | Slash
  | Caret
  | Percent
  | Unknown
  | Eof
deriving DecidableEq, Repr

/-- src/src/token.rs `Token`; the literal is the list of characters of the
Rust `String`. -/
structure Token where
  kind : TokenKind
  literal : List Char
deriving DecidableEq, Repr

/-- Tabulation of the 27 single-character arms of the `match self.ch` in
`<Lexer as Iterator>::next`, in source order; `none` for a character that
none of these arms matches. -/
def symKind (c : Char) : Option TokenKind :=
  if c == ';' then some .Semi
  else if c == ',' then some .Comma
  else if c == '.' then some .Dot
  else if c == '(' then some .OpenParen
  else if c == ')' then some .CloseParen
  else if c == '{' then some .OpenBrace
  else if c == '}' then some .CloseBrace
  else if c == '[' then some .OpenBracket
  else if c == ']' then some .CloseBracket
  else if c == '@' then some .At
  else if c == '#' then some .Pound
  else if c == '~' then some .Tilde
  else if c == '!' then some .Bang
  else if c == '=' then some .Eq
  else if c == '+' then some .Plus
  else if c == '-' then some .Minus
  else if c == '*' then some .Star
  else if c == '/' then some .Slash
  else if c == '<' then some .Lt
  else if c == '>' then some .Gt
  else if c == '&' then some .And
  else if c == '|' then some .Or
  else if c == '^' then some .Caret
  else if c == ':' then some .Colon
  else if c == '?' then some .Question
  else if c == '$' then some .Dollar
  else if c == '%' then some .Percent
  else none

/-- src/src/lib.rs `Lexer`.  `input` is the source text as a character
list (its byte view is recovered through `utf8Len`/`byteSlice`). -/
structure Lexer where
  input : List Char
  position : Nat
  read_position : Nat
  ch : Char
deriving DecidableEq, Repr

namespace Lexer

/-- `Lexer::read_char`.  The bound check is against the BYTE length while
the fetch `input.chars().nth(read_position)` is by CHARACTER index; the
`.unwrap()` panic (when `nth` finds no character although the byte bound
check passed) is `none`. -/
def read_char (l : Lexer) : Option Lexer :=
  if utf8Len l.input ≤ l.read_position then
    some { l with ch := '\x00', position := l.read_position,
                  read_position := l.read_position + 1 }
  else
    match l.input.get? l.read_position with
    | some c =>
      some { l with ch := c, position := l.read_position,
                    read_position := l.read_position + 1 }
    | none => none

/-- `Lexer::consume_char`: remember the current character, advance, return
its one-character string. -/
def consume_char (l : Lexer) : Option (List Char × Lexer) :=
  (read_char l).map (fun l2 => ([l.ch], l2))

/-- `Lexer::is_letter`. -/
def is_letter (l : Lexer) : Bool :=
  isLetterChar l.ch

/-- `Lexer::is_digit`. -/
def is_digit (l : Lexer) : Bool :=
  isAsciiDigit l.ch

/-- One `while p(self.ch) { self.read_char(); }` loop, the shape shared by
`read_ident`, `read_number` and `skip_whitespace`.  The fuel argument only
bounds the iteration count; every use below passes `utf8Len input + 2`,
which exceeds the iteration count possible from any state the scanner can
reach, so exhausted fuel (also `none`) never occurs there. -/
def charLoop (p : Char → Bool) : Nat → Lexer → Option Lexer
  | 0, _ => none
  | f + 1, l => if p l.ch then (read_char l).bind (charLoop p f) else some l

/-- `Lexer::read_ident`: remember the start position, advance while
`is_letter`, and return the byte slice `input[position..self.position]`. -/
def read_ident (l : Lexer) : Option (List Char × Lexer) :=
  (charLoop isLetterChar (utf8Len l.input + 2) l).bind fun l2 =>
    (byteSlice l.input l.position l2.position).map (fun s => (s, l2))

/-- `Lexer::read_number`: remember the start position, advance while
`is_ascii_digit`, and return the byte slice `input[position..self.position]`. -/
def read_number (l : Lexer) : Option (List Char × Lexer) :=
  (charLoop isAsciiDigit (utf8Len l.input + 2) l).bind fun l2 =>
    (byteSlice l.input l.position l2.position).map (fun s => (s, l2))

/-- `Lexer::skip_whitespace`. -/
def skip_whitespace (l : Lexer) : Option Lexer :=
  charLoop rustIsWhitespace (utf8Len l.input + 2) l

/-- `Lexer::new`: zero cursor, sentinel character, then one `read_char`. -/
def new (input : List Char) : Option Lexer :=
  read_char { input := input, position := 0, read_position := 0, ch := '\x00' }

/-- `<Lexer as Iterator>::next`: skip whitespace, signal exhaustion on the
sentinel, otherwise dispatch on the current character — the 27
single-character arms (through `symKind`), then the `is_letter` and
`is_digit` guards, then the `Unknown` fallback. -/
def next (l : Lexer) : Option (Option (Token × Lexer)) :=
  (skip_whitespace l).bind fun l1 =>
    if l1.ch = '\x00' then some none
    else
      match symKind l1.ch with
      | some k => (consume_char l1).map (fun s => some (⟨k, s.1⟩, s.2))
      | none =>
        if is_letter l1 then
          (read_ident l1).map (fun s => some (⟨.Ident, s.1⟩, s.2))
        else if is_digit l1 then
          (read_number l1).map (fun s => some (⟨.Literal .Int, s.1⟩, s.2))
        else
          (consume_char l1).map (fun s => some (⟨.Unknown, s.1⟩, s.2))

end Lexer

/-- Pull tokens from the scanner until exhaustion.  The fuel bounds the
number of pulls; `lex` passes `utf8Len input + 2`, which exceeds the
number of pulls possible on that input (proved below as fuel stability). -/
def run : Nat → Lexer → Option (List Token)
  | 0, _ => none
  | f + 1, l =>
    match Lexer.next l with
    | none => none
    | some none => some []
    | some (some (t, l2)) => (run f l2).map (t :: ·)

/-- Scan a whole input: build the scanner with `Lexer::new` and collect the
iterator's tokens.  `some ts` is a completed scan, `none` a panic. -/
def lex (input : List Char) : Option (List Token) :=
  (Lexer.new input).bind (run (utf8Len input + 2))

end RustLexer

namespace RustLexer

/-- Every character of the list is a single UTF-8 byte (ASCII). -/
def AllOneByte (l : List Char) : Prop :=
  ∀ c ∈ l, c.utf8Size = 1

/-- No character of the list is the NUL sentinel. -/
def NoNul (l : List Char) : Prop :=
  ∀ c ∈ l, c ≠ '\x00'

instance (l : List Char) : Decidable (AllOneByte l) :=
  inferInstanceAs (Decidable (∀ c ∈ l, c.utf8Size = 1))

instance (l : List Char) : Decidable (NoNul l) :=
  inferInstanceAs (Decidable (∀ c ∈ l, c ≠ '\x00'))

theorem ws_nul : rustIsWhitespace '\x00' = false := by decide

theorem letter_nul : isLetterChar '\x00' = false := by decide

theorem digit_nul : isAsciiDigit '\x00' = false := by decide

theorem letter_not_ws {c : Char} (h : isLetterChar c = true) :
    rustIsWhitespace c = false := by
  rcases (by simpa [isLetterChar] using h) with h2 | h2
  · simp only [rustIsAlphabetic, Bool.or_eq_true, Bool.and_eq_true,
      decide_eq_true_eq, beq_iff_eq] at h2
    simp only [rustIsWhitespace, Bool.or_eq_false_iff, Bool.and_eq_false_iff,
      decide_eq_false_iff_not, beq_eq_false_iff_ne, ne_eq]
    omega
  · subst h2
    decide

theorem digit_not_ws {c : Char} (h : isAsciiDigit c = true) :
    rustIsWhitespace c = false := by
  simp only [isAsciiDigit, Bool.and_eq_true, decide_eq_true_eq] at h
  simp only [rustIsWhitespace, Bool.or_eq_false_iff, Bool.and_eq_false_iff,
    decide_eq_false_iff_not, beq_eq_false_iff_ne, ne_eq]
  omega

theorem letter_not_digit {c : Char} (h : isLetterChar c = true) :
    isAsciiDigit c = false := by
  rcases (by simpa [isLetterChar] using h) with h2 | h2
  · simp only [rustIsAlphabetic, Bool.or_eq_true, Bool.and_eq_true,
      decide_eq_true_eq, beq_iff_eq] at h2
    simp only [isAsciiDigit, Bool.and_eq_false_iff, decide_eq_false_iff_not]
    omega
  · subst h2
    decide

theorem ws_ne_nul {c : Char} (h : rustIsWhitespace c = true) : c ≠ '\x00' := by
  intro h2
  rw [h2, ws_nul] at h
  cases h

theorem letter_ne_nul {c : Char} (h : isLetterChar c = true) : c ≠ '\x00' := by
  intro h2
  rw [h2, letter_nul] at h
  cases h

theorem digit_ne_nul {c : Char} (h : isAsciiDigit c = true) : c ≠ '\x00' := by
  intro h2
  rw [h2, digit_nul] at h
  cases h

theorem symKind_kind {c : Char} {k : TokenKind} (h : symKind c = some k) :
    k ≠ .WhiteSpace ∧ k ≠ .Eof := by
  by_cases h01 : c = ';'
  · subst h01
    have h2 : some TokenKind.Semi = some k := h
    injection h2 with h3
    subst h3
    exact ⟨by decide, by decide⟩
  by_cases h02 : c = ','
  · subst h02
    have h2 : some TokenKind.Comma = some k := h
    injection h2 with h3
    subst h3
    exact ⟨by decide, by decide⟩
  by_cases h03 : c = '.'
  · subst h03
    have h2 : some TokenKind.Dot = some k := h
    injection h2 with h3
    subst h3
    exact ⟨by decide, by decide⟩
  by_cases h04 : c = '('
  · subst h04
    have h2 : some TokenKind.OpenParen = some k := h
    injection h2 with h3
    subst h3
    exact ⟨by decide, by decide⟩
  by_cases h05 : c = ')'
  · subst h05
    have h2 : some TokenKind.CloseParen = some k := h
    injection h2 with h3
    subst h3
    exact ⟨by decide, by decide⟩
  by_cases h06 : c = '{'
  · subst h06
    have h2 : some TokenKind.OpenBrace = some k := h
    injection h2 with h3
    subst h3
    exact ⟨by decide, by decide⟩
  by_cases h07 : c = '}'
  · subst h07
    have h2 : some TokenKind.CloseBrace = some k := h
    injection h2 with h3
    subst h3
    exact ⟨by decide, by decide⟩
  by_cases h08 : c = '['
  · subst h08
    have h2 : some TokenKind.OpenBracket = some k := h
    injection h2 with h3
    subst h3
    exact ⟨by decide, by decide⟩
  by_cases h09 : c = ']'
  · subst h09
    have h2 : some TokenKind.CloseBracket = some k := h
    injection h2 with h3
    subst h3
    exact ⟨by decide, by decide⟩
  by_cases h10 : c = '@'
  · subst h10
    have h2 : some TokenKind.At = some k := h
    injection h2 with h3
    subst h3
    exact ⟨by decide, by decide⟩
  by_cases h11 : c = '#'
  · subst h11
    have h2 : some TokenKind.Pound = some k := h
    injection h2 with h3
    subst h3
    exact ⟨by decide, by decide⟩
  by_cases h12 : c = '~'
  · subst h12
    have h2 : some TokenKind.Tilde = some k := h
    injection h2 with h3
    subst h3
    exact ⟨by decide, by decide⟩
  by_cases h13 : c = '!'
  · subst h13
    have h2 : some TokenKind.Bang = some k := h
    injection h2 with h3
    subst h3
    exact ⟨by decide, by decide⟩
  by_cases h14 : c = '='
  · subst h14
    have h2 : some TokenKind.Eq = some k := h
    injection h2 with h3
    subst h3
    exact ⟨by decide, by decide⟩
  by_cases h15 : c = '+'
  · subst h15
    have h2 : some TokenKind.Plus = some k := h
    injection h2 with h3
    subst h3
    exact ⟨by decide, by decide⟩
  by_cases h16 : c = '-'
  · subst h16
    have h2 : some TokenKind.Minus = some k := h
    injection h2 with h3
    subst h3
    exact ⟨by decide, by decide⟩
  by_cases h17 : c = '*'
  · subst h17
    have h2 : some TokenKind.Star = some k := h
    injection h2 with h3
    subst h3
    exact ⟨by decide, by decide⟩
  by_cases h18 : c = '/'
  · subst h18
    have h2 : some TokenKind.Slash = some k := h
    injection h2 with h3
    subst h3
    exact ⟨by decide, by decide⟩
  by_cases h19 : c = '<'
  · subst h19
    have h2 : some TokenKind.Lt = some k := h
    injection h2 with h3
    subst h3
    exact ⟨by decide, by decide⟩
  by_cases h20 : c = '>'
  · subst h20
    have h2 : some TokenKind.Gt = some k := h
    injection h2 with h3
    subst h3
    exact ⟨by decide, by decide⟩
  by_cases h21 : c = '&'
  · subst h21
    have h2 : some TokenKind.And = some k := h
    injection h2 with h3
    subst h3
    exact ⟨by decide, by decide⟩
  by_cases h22 : c = '|'
  · subst h22
    have h2 : some TokenKind.Or = some k := h
    injection h2 with h3
    subst h3
    exact ⟨by decide, by decide⟩
  by_cases h23 : c = '^'
  · subst h23
    have h2 : some TokenKind.Caret = some k := h
    injection h2 with h3
    subst h3
    exact ⟨by decide, by decide⟩
  by_cases h24 : c = ':'
  · subst h24
    have h2 : some TokenKind.Colon = some k := h
    injection h2 with h3
    subst h3
    exact ⟨by decide, by decide⟩
  by_cases h25 : c = '?'
  · subst h25
    have h2 : some TokenKind.Question = some k := h
    injection h2 with h3
    subst h3
    exact ⟨by decide, by decide⟩
  by_cases h26 : c = '$'
  · subst h26
    have h2 : some TokenKind.Dollar = some k := h
    injection h2 with h3
    subst h3
    exact ⟨by decide, by decide⟩
  by_cases h27 : c = '%'
  · subst h27
    have h2 : some TokenKind.Percent = some k := h
    injection h2 with h3
    subst h3
    exact ⟨by decide, by decide⟩
  exfalso
  unfold symKind at h
  rw [if_neg (by simpa using h01), if_neg (by simpa using h02), if_neg (by simpa using h03), if_neg (by simpa using h04), if_neg (by simpa using h05), if_neg (by simpa using h06), if_neg (by simpa using h07), if_neg (by simpa using h08), if_neg (by simpa using h09), if_neg (by simpa using h10), if_neg (by simpa using h11), if_neg (by simpa using h12), if_neg (by simpa using h13), if_neg (by simpa using h14), if_neg (by simpa using h15), if_neg (by simpa using h16), if_neg (by simpa using h17), if_neg (by simpa using h18), if_neg (by simpa using h19), if_neg (by simpa using h20), if_neg (by simpa using h21), if_neg (by simpa using h22), if_neg (by simpa using h23), if_neg (by simpa using h24), if_neg (by simpa using h25), if_neg (by simpa using h26), if_neg (by simpa using h27)] at h
  exact absurd h (by simp)

theorem utf8Len_nil : utf8Len [] = 0 := rfl

theorem utf8Len_cons (c : Char) (l : List Char) :
    utf8Len (c :: l) = c.utf8Size + utf8Len l := by
  simp [utf8Len]

theorem length_le_utf8Len (l : List Char) : l.length ≤ utf8Len l := by
  induction l with
  | nil => simp [utf8Len]
  | cons c t ih =>
    have := c.utf8Size_pos
    rw [utf8Len_cons]
    simp only [List.length_cons]
    omega

theorem utf8Len_of_allOneByte {l : List Char} (h : AllOneByte l) :
    utf8Len l = l.length := by
  induction l with
  | nil => rfl
  | cons c t ih =>
    rw [utf8Len_cons, ih (fun x hx => h x (List.mem_cons_of_mem c hx)),
      h c (List.mem_cons_self c t)]
    simp [Nat.add_comm]

theorem length_lt_utf8Len {l : List Char} (h : ¬ AllOneByte l) :
    l.length < utf8Len l := by
  induction l with
  | nil => exact absurd (fun c hc => absurd hc (List.not_mem_nil c)) h
  | cons c t ih =>
    rw [utf8Len_cons]
    simp only [List.length_cons]
    have hpos := c.utf8Size_pos
    by_cases h1 : c.utf8Size = 1
    · have h2 : ¬ AllOneByte t := by
        intro h3
        exact h (fun x hx => by
          rcases List.mem_cons.mp hx with rfl | hx2
          · exact h1
          · exact h3 x hx2)
      have := ih h2
      omega
    · have := length_le_utf8Len t
      omega

theorem dropBytes_ascii {l : List Char} (h : AllOneByte l) :
    ∀ a ≤ l.length, dropBytes l a = some (l.drop a) := by
  induction l with
  | nil =>
    intro a ha
    have h0 : a = 0 := by simpa using ha
    subst h0
    rfl
  | cons c t ih =>
    intro a ha
    match a with
    | 0 => rfl
    | a' + 1 =>
      have hc : c.utf8Size = 1 := h c (List.mem_cons_self c t)
      simp only [dropBytes, hc]
      rw [if_pos (by omega)]
      have h1 : a' + 1 - 1 = a' := by omega
      rw [h1]
      exact ih (fun x hx => h x (List.mem_cons_of_mem c hx)) a'
        (by simp only [List.length_cons] at ha; omega)

theorem takeBytes_ascii {l : List Char} (h : AllOneByte l) :
    ∀ b ≤ l.length, takeBytes l b = some (l.take b) := by
  induction l with
  | nil =>
    intro b hb
    have h0 : b = 0 := by simpa using hb
    subst h0
    rfl
  | cons c t ih =>
    intro b hb
    match b with
    | 0 => rfl
    | b' + 1 =>
      have hc : c.utf8Size = 1 := h c (List.mem_cons_self c t)
      simp only [takeBytes, hc]
      rw [if_pos (by omega)]
      have h1 : b' + 1 - 1 = b' := by omega
      rw [h1, ih (fun x hx => h x (List.mem_cons_of_mem c hx)) b'
        (by simp only [List.length_cons] at hb; omega)]
      rfl

theorem byteSlice_ascii {l : List Char} (h : AllOneByte l) {a b : Nat}
    (hab : a ≤ b) (hb : b ≤ l.length) :
    byteSlice l a b = some ((l.drop a).take (b - a)) := by
  unfold byteSlice
  rw [if_pos hab, dropBytes_ascii h a (le_trans hab hb)]
  have h2 : AllOneByte (l.drop a) := fun x hx => h x (List.mem_of_mem_drop hx)
  show takeBytes (l.drop a) (b - a) = _
  rw [takeBytes_ascii h2 (b - a) (by rw [List.length_drop]; omega)]

end RustLexer

namespace RustLexer

theorem tw_len_le (pf : Char → Bool) (l : List Char) :
    (l.takeWhile pf).length ≤ l.length := by
  induction l with
  | nil => simp
  | cons c t ih =>
    by_cases hc : pf c
    · simp only [List.takeWhile_cons, hc, ite_true, List.length_cons]
      omega
    · simp only [List.takeWhile_cons, hc]
      simp

theorem take_tw (pf : Char → Bool) (l : List Char) :
    l.take ((l.takeWhile pf).length) = l.takeWhile pf := by
  induction l with
  | nil => simp
  | cons c t ih =>
    by_cases hc : pf c
    · simp only [List.takeWhile_cons, hc, ite_true, List.length_cons,
        List.take_succ_cons, ih]
    · simp only [List.takeWhile_cons, hc]
      simp

theorem dropWhile_eq_drop (pf : Char → Bool) (l : List Char) :
    l.dropWhile pf = l.drop ((l.takeWhile pf).length) := by
  induction l with
  | nil => simp
  | cons c t ih =>
    by_cases hc : pf c
    · simp only [List.dropWhile_cons, hc, ite_true, List.takeWhile_cons,
        List.length_cons, List.drop_succ_cons, ih]
    · simp only [List.dropWhile_cons, hc, List.takeWhile_cons]
      simp

theorem dropWhile_head_false {pf : Char → Bool} {l t : List Char} {c : Char}
    (h : l.dropWhile pf = c :: t) : pf c = false := by
  induction l with
  | nil => simp at h
  | cons d u ih =>
    by_cases hd : pf d
    · rw [List.dropWhile_cons, if_pos hd] at h
      exact ih h
    · rw [List.dropWhile_cons, if_neg hd] at h
      cases h
      exact Bool.of_not_eq_true hd

theorem takeWhile_sub {pf qf : Char → Bool}
    (hsub : ∀ x, pf x = true → qf x = true) (l : List Char) :
    (l.takeWhile qf).takeWhile pf = l.takeWhile pf := by
  induction l with
  | nil => simp
  | cons c t ih =>
    by_cases hc : pf c
    · have hq : qf c = true := hsub c hc
      simp only [List.takeWhile_cons, hq, ite_true, hc, ih]
    · by_cases hq : qf c
      · simp only [List.takeWhile_cons, hq, ite_true, hc]
        simp [hc]
      · simp only [List.takeWhile_cons, hq, ite_false, hc]
        simp [hc]

theorem dropWhile_takeWhile_comm {pf qf : Char → Bool}
    (hsub : ∀ x, pf x = true → qf x = true) (l : List Char) :
    (l.takeWhile qf).dropWhile pf = (l.dropWhile pf).takeWhile qf := by
  induction l with
  | nil => simp
  | cons c t ih =>
    by_cases hc : pf c
    · have hq : qf c = true := hsub c hc
      simp only [List.takeWhile_cons, hq, ite_true, List.dropWhile_cons, hc,
        ite_true, ih]
    · by_cases hq : qf c
      · simp only [List.takeWhile_cons, hq, ite_true, List.dropWhile_cons,
          hc, ite_false]
        simp [hq]
      · simp only [List.takeWhile_cons, hq, ite_false, List.dropWhile_cons,
          hc, ite_false, List.dropWhile_nil]
        simp [hq]

/-- The character at character index `p`, or the scanner sentinel past the
end: the value `current_char` holds in a consistent cursor state. -/
def chAt (m : List Char) (p : Nat) : Char :=
  if h : p < m.length then m[p] else '\x00'

/-- The scanner state with the cursor at character position `p` of input
`m`: the state reached after `p + 1` successful advances from
construction. -/
def mkA (m : List Char) (p : Nat) : Lexer :=
  { input := m, position := p, read_position := p + 1, ch := chAt m p }

theorem chAt_lt {m : List Char} {p : Nat} (h : p < m.length) :
    chAt m p = m[p] := by
  simp [chAt, h]

theorem chAt_ge {m : List Char} {p : Nat} (h : m.length ≤ p) :
    chAt m p = '\x00' := by
  simp only [chAt]
  rw [dif_neg (by omega)]

theorem read_char_A {m : List Char} (hm : AllOneByte m) {p : Nat}
    (hp : p < m.length) :
    Lexer.read_char (mkA m p) = some (mkA m (p + 1)) := by
  unfold Lexer.read_char
  simp only [mkA, utf8Len_of_allOneByte hm]
  by_cases h1 : p + 1 < m.length
  · rw [if_neg (by omega)]
    have h2 : m.get? (p + 1) = some m[p + 1] := by
      rw [List.get?_eq_getElem?, List.getElem?_eq_getElem h1]
    rw [h2]
    simp [chAt, h1]
  · rw [if_pos (by omega)]
    simp only [Option.some.injEq]
    congr 1
    rw [chAt_ge (by omega)]

theorem charLoop_A (pf : Char → Bool) (hp0 : pf '\x00' = false)
    {m : List Char} (hm : AllOneByte m) :
    ∀ f p, p ≤ m.length → ((m.drop p).takeWhile pf).length < f →
      Lexer.charLoop pf f (mkA m p) =
        some (mkA m (p + ((m.drop p).takeWhile pf).length)) := by
  intro f
  induction f with
  | zero => intro p _ hf; omega
  | succ f ih =>
    intro p hp hf
    show (if pf (mkA m p).ch = true then
        (Lexer.read_char (mkA m p)).bind (Lexer.charLoop pf f)
      else some (mkA m p)) = _
    have hch : (mkA m p).ch = chAt m p := rfl
    by_cases hc : pf (chAt m p) = true
    · have hplt : p < m.length := by
        by_contra hge
        rw [chAt_ge (by omega)] at hc
        rw [hp0] at hc
        cases hc
      have hdrop : m.drop p = chAt m p :: m.drop (p + 1) := by
        rw [chAt_lt hplt]
        exact List.drop_eq_getElem_cons hplt
      have htw : (m.drop p).takeWhile pf
          = chAt m p :: (m.drop (p + 1)).takeWhile pf := by
        rw [hdrop, List.takeWhile_cons, if_pos hc]
      rw [hch, if_pos hc, read_char_A hm hplt]
      show Lexer.charLoop pf f (mkA m (p + 1)) = _
      rw [ih (p + 1) (by omega) (by rw [htw] at hf; simp at hf; omega)]
      congr 2
      rw [htw]
      simp only [List.length_cons]
      omega
    · rw [hch, if_neg hc]
      have htw : (m.drop p).takeWhile pf = [] := by
        by_cases hplt : p < m.length
        · rw [List.drop_eq_getElem_cons hplt, List.takeWhile_cons,
            if_neg (by rw [← chAt_lt hplt]; exact hc)]
        · rw [List.drop_eq_nil_of_le (by omega), List.takeWhile_nil]
      rw [htw]
      simp

end RustLexer

namespace RustLexer

/-- Number of whitespace characters the skip loop passes from position `p`. -/
def wsLen (m : List Char) (p : Nat) : Nat :=
  ((m.drop p).takeWhile rustIsWhitespace).length

theorem wsLen_le {m : List Char} {p : Nat} (hp : p ≤ m.length) :
    p + wsLen m p ≤ m.length := by
  have h1 := tw_len_le rustIsWhitespace (m.drop p)
  have h2 : (m.drop p).length = m.length - p := by simp
  unfold wsLen
  omega

theorem skip_A {m : List Char} (hm : AllOneByte m) {p : Nat}
    (hp : p ≤ m.length) :
    Lexer.skip_whitespace (mkA m p) = some (mkA m (p + wsLen m p)) := by
  unfold Lexer.skip_whitespace
  have h1 : (mkA m p).input = m := rfl
  rw [h1, utf8Len_of_allOneByte hm]
  have h2 := tw_len_le rustIsWhitespace (m.drop p)
  have h3 : (m.drop p).length = m.length - p := by simp
  exact charLoop_A rustIsWhitespace ws_nul hm (m.length + 2) p hp (by omega)

theorem drop_skip {m : List Char} {p : Nat} :
    m.drop (p + wsLen m p) = (m.drop p).dropWhile rustIsWhitespace := by
  rw [dropWhile_eq_drop, ← List.drop_drop]
  rfl

theorem chAt_skip_not_ws {m : List Char} {p : Nat} :
    rustIsWhitespace (chAt m (p + wsLen m p)) = false := by
  by_cases h1 : p + wsLen m p < m.length
  · rw [chAt_lt h1]
    have h2 : (m.drop p).dropWhile rustIsWhitespace
        = m[p + wsLen m p] :: m.drop (p + wsLen m p + 1) := by
      rw [← drop_skip]
      exact List.drop_eq_getElem_cons h1
    exact dropWhile_head_false h2
  · rw [chAt_ge (by omega)]
    exact ws_nul

theorem read_ident_A {m : List Char} (hm : AllOneByte m) {p : Nat}
    (hp : p ≤ m.length) :
    Lexer.read_ident (mkA m p) =
      some ((m.drop p).takeWhile isLetterChar,
        mkA m (p + ((m.drop p).takeWhile isLetterChar).length)) := by
  unfold Lexer.read_ident
  have h1 : (mkA m p).input = m := rfl
  have h2 : (mkA m p).position = p := rfl
  have hlen := tw_len_le isLetterChar (m.drop p)
  have h3 : (m.drop p).length = m.length - p := by simp
  rw [h1, h2, utf8Len_of_allOneByte hm,
    charLoop_A isLetterChar letter_nul hm (m.length + 2) p hp (by omega)]
  show (byteSlice m p (mkA m (p + _)).position).map _ = _
  have h4 : (mkA m (p + ((m.drop p).takeWhile isLetterChar).length)).position
      = p + ((m.drop p).takeWhile isLetterChar).length := rfl
  rw [h4, byteSlice_ascii hm (by omega) (by omega)]
  have h5 : p + ((m.drop p).takeWhile isLetterChar).length - p
      = ((m.drop p).takeWhile isLetterChar).length := by omega
  rw [h5, take_tw]
  rfl

theorem read_number_A {m : List Char} (hm : AllOneByte m) {p : Nat}
    (hp : p ≤ m.length) :
    Lexer.read_number (mkA m p) =
      some ((m.drop p).takeWhile isAsciiDigit,
        mkA m (p + ((m.drop p).takeWhile isAsciiDigit).length)) := by
  unfold Lexer.read_number
  have h1 : (mkA m p).input = m := rfl
  have h2 : (mkA m p).position = p := rfl
  have hlen := tw_len_le isAsciiDigit (m.drop p)
  have h3 : (m.drop p).length = m.length - p := by simp
  rw [h1, h2, utf8Len_of_allOneByte hm,
    charLoop_A isAsciiDigit digit_nul hm (m.length + 2) p hp (by omega)]
  show (byteSlice m p (mkA m (p + _)).position).map _ = _
  have h4 : (mkA m (p + ((m.drop p).takeWhile isAsciiDigit).length)).position
      = p + ((m.drop p).takeWhile isAsciiDigit).length := rfl
  rw [h4, byteSlice_ascii hm (by omega) (by omega)]
  have h5 : p + ((m.drop p).takeWhile isAsciiDigit).length - p
      = ((m.drop p).takeWhile isAsciiDigit).length := by omega
  rw [h5, take_tw]
  rfl

theorem consume_char_A {m : List Char} (hm : AllOneByte m) {p : Nat}
    (hp : p < m.length) :
    Lexer.consume_char (mkA m p) = some ([chAt m p], mkA m (p + 1)) := by
  unfold Lexer.consume_char
  rw [read_char_A hm hp]
  rfl

end RustLexer

namespace RustLexer

theorem chAt_q_lt {m : List Char} {q : Nat} (hq : q ≤ m.length)
    (h0 : chAt m q ≠ '\x00') : q < m.length := by
  by_contra hge
  exact h0 (chAt_ge (by omega))

theorem next_A_exhaust {m : List Char} (hm : AllOneByte m) {p : Nat}
    (hp : p ≤ m.length) (h0 : chAt m (p + wsLen m p) = '\x00') :
    Lexer.next (mkA m p) = some none := by
  unfold Lexer.next
  rw [skip_A hm hp]
  show (if (mkA m (p + wsLen m p)).ch = '\x00' then _ else _) = _
  have h1 : (mkA m (p + wsLen m p)).ch = chAt m (p + wsLen m p) := rfl
  rw [h1, if_pos h0]

theorem next_A_sym {m : List Char} (hm : AllOneByte m) {p : Nat} {k : TokenKind}
    (hp : p ≤ m.length) (h0 : chAt m (p + wsLen m p) ≠ '\x00')
    (hk : symKind (chAt m (p + wsLen m p)) = some k) :
    Lexer.next (mkA m p) =
      some (some (⟨k, [chAt m (p + wsLen m p)]⟩, mkA m (p + wsLen m p + 1))) := by
  have hqlt : p + wsLen m p < m.length := chAt_q_lt (wsLen_le hp) h0
  unfold Lexer.next
  rw [skip_A hm hp]
  show (if (mkA m (p + wsLen m p)).ch = '\x00' then _ else _) = _
  have h1 : (mkA m (p + wsLen m p)).ch = chAt m (p + wsLen m p) := rfl
  rw [h1, if_neg h0, hk]
  rw [consume_char_A hm hqlt]
  rfl

theorem next_A_ident {m : List Char} (hm : AllOneByte m) {p : Nat}
    (hp : p ≤ m.length) (h0 : chAt m (p + wsLen m p) ≠ '\x00')
    (hsym : symKind (chAt m (p + wsLen m p)) = none)
    (hl : isLetterChar (chAt m (p + wsLen m p)) = true) :
    Lexer.next (mkA m p) =
      some (some (⟨.Ident, (m.drop (p + wsLen m p)).takeWhile isLetterChar⟩,
        mkA m (p + wsLen m p +
          ((m.drop (p + wsLen m p)).takeWhile isLetterChar).length))) := by
  have hqle : p + wsLen m p ≤ m.length := wsLen_le hp
  unfold Lexer.next
  rw [skip_A hm hp]
  show (if (mkA m (p + wsLen m p)).ch = '\x00' then _ else _) = _
  have h1 : (mkA m (p + wsLen m p)).ch = chAt m (p + wsLen m p) := rfl
  rw [h1, if_neg h0, hsym]
  have h2 : Lexer.is_letter (mkA m (p + wsLen m p)) = true := hl
  rw [h2, if_pos rfl, read_ident_A hm hqle]
  rfl

theorem next_A_digit {m : List Char} (hm : AllOneByte m) {p : Nat}
    (hp : p ≤ m.length) (h0 : chAt m (p + wsLen m p) ≠ '\x00')
    (hsym : symKind (chAt m (p + wsLen m p)) = none)
    (hl : isLetterChar (chAt m (p + wsLen m p)) = false)
    (hd : isAsciiDigit (chAt m (p + wsLen m p)) = true) :
    Lexer.next (mkA m p) =
      some (some (⟨.Literal .Int, (m.drop (p + wsLen m p)).takeWhile isAsciiDigit⟩,
        mkA m (p + wsLen m p +
          ((m.drop (p + wsLen m p)).takeWhile isAsciiDigit).length))) := by
  have hqle : p + wsLen m p ≤ m.length := wsLen_le hp
  unfold Lexer.next
  rw [skip_A hm hp]
  show (if (mkA m (p + wsLen m p)).ch = '\x00' then _ else _) = _
  have h1 : (mkA m (p + wsLen m p)).ch = chAt m (p + wsLen m p) := rfl
  rw [h1, if_neg h0, hsym]
  have h2 : Lexer.is_letter (mkA m (p + wsLen m p)) = false := hl
  have h3 : Lexer.is_digit (mkA m (p + wsLen m p)) = true := hd
  rw [h2, if_neg (by simp), h3, if_pos rfl, read_number_A hm hqle]
  rfl

theorem next_A_unknown {m : List Char} (hm : AllOneByte m) {p : Nat}
    (hp : p ≤ m.length) (h0 : chAt m (p + wsLen m p) ≠ '\x00')
    (hsym : symKind (chAt m (p + wsLen m p)) = none)
    (hl : isLetterChar (chAt m (p + wsLen m p)) = false)
    (hd : isAsciiDigit (chAt m (p + wsLen m p)) = false) :
    Lexer.next (mkA m p) =
      some (some (⟨.Unknown, [chAt m (p + wsLen m p)]⟩,
        mkA m (p + wsLen m p + 1))) := by
  have hqlt : p + wsLen m p < m.length := chAt_q_lt (wsLen_le hp) h0
  unfold Lexer.next
  rw [skip_A hm hp]
  show (if (mkA m (p + wsLen m p)).ch = '\x00' then _ else _) = _
  have h1 : (mkA m (p + wsLen m p)).ch = chAt m (p + wsLen m p) := rfl
  rw [h1, if_neg h0, hsym]
  have h2 : Lexer.is_letter (mkA m (p + wsLen m p)) = false := hl
  have h3 : Lexer.is_digit (mkA m (p + wsLen m p)) = false := hd
  rw [h2, if_neg (by simp), h3, if_neg (by simp), consume_char_A hm hqlt]
  rfl

end RustLexer

namespace RustLexer

/-- Reference recognizer: one token per recursion step, following the
scanning rules of the spec (skip whitespace; end at the NUL sentinel;
single-character symbol table; maximal letter-or-underscore run as `Ident`;
maximal ASCII-digit run as `Literal Int`; otherwise one `Unknown`
character).  Used as the specification side of the refinement proofs. -/
def lexRun0 (l : List Char) : List Token :=
  match l with
  | [] => []
  | c :: cs =>
    if c = '\x00' then []
    else if rustIsWhitespace c then lexRun0 cs
    else
      match symKind c with
      | some k => ⟨k, [c]⟩ :: lexRun0 cs
      | none =>
        if hl : isLetterChar c then
          ⟨.Ident, (c :: cs).takeWhile isLetterChar⟩ ::
            lexRun0 ((c :: cs).dropWhile isLetterChar)
        else if hd : isAsciiDigit c then
          ⟨.Literal .Int, (c :: cs).takeWhile isAsciiDigit⟩ ::
            lexRun0 ((c :: cs).dropWhile isAsciiDigit)
        else ⟨.Unknown, [c]⟩ :: lexRun0 cs
termination_by l.length
decreasing_by
  all_goals first
    | (rw [List.dropWhile_cons, if_pos hl]; exact Nat.lt_succ_of_le (List.dropWhile_sublist isLetterChar (l := cs)).length_le)
    | (rw [List.dropWhile_cons, if_pos hd]; exact Nat.lt_succ_of_le (List.dropWhile_sublist isAsciiDigit (l := cs)).length_le)
    | simp

theorem lexRun0_nil : lexRun0 [] = [] := by
  rw [lexRun0]

theorem lexRun0_nul (l : List Char) : lexRun0 ('\x00' :: l) = [] := by
  rw [lexRun0]
  simp

theorem lexRun0_ws {c : Char} (hc : rustIsWhitespace c = true)
    (l : List Char) : lexRun0 (c :: l) = lexRun0 l := by
  rw [lexRun0]
  rw [if_neg (ws_ne_nul hc), if_pos hc]

theorem lexRun0_sym {c : Char} {k : TokenKind} (h0 : c ≠ '\x00')
    (hws : rustIsWhitespace c = false) (hsym : symKind c = some k)
    (l : List Char) :
    lexRun0 (c :: l) = ⟨k, [c]⟩ :: lexRun0 l := by
  rw [lexRun0]
  rw [if_neg h0, if_neg (by simp [hws]), hsym]

theorem lexRun0_letter {c : Char} (hl : isLetterChar c = true)
    (hsym : symKind c = none) (l : List Char) :
    lexRun0 (c :: l) =
      ⟨.Ident, (c :: l).takeWhile isLetterChar⟩ ::
        lexRun0 ((c :: l).dropWhile isLetterChar) := by
  rw [lexRun0]
  rw [if_neg (letter_ne_nul hl), if_neg (by simp [letter_not_ws hl]), hsym]
  rw [dif_pos hl]

theorem lexRun0_digit {c : Char} (hl : isLetterChar c = false)
    (hd : isAsciiDigit c = true) (hsym : symKind c = none) (l : List Char) :
    lexRun0 (c :: l) =
      ⟨.Literal .Int, (c :: l).takeWhile isAsciiDigit⟩ ::
        lexRun0 ((c :: l).dropWhile isAsciiDigit) := by
  rw [lexRun0]
  rw [if_neg (digit_ne_nul hd), if_neg (by simp [digit_not_ws hd]), hsym]
  rw [dif_neg (by simp [hl]), dif_pos hd]

theorem lexRun0_unknown {c : Char} (h0 : c ≠ '\x00')
    (hws : rustIsWhitespace c = false) (hl : isLetterChar c = false)
    (hd : isAsciiDigit c = false) (hsym : symKind c = none) (l : List Char) :
    lexRun0 (c :: l) = ⟨.Unknown, [c]⟩ :: lexRun0 l := by
  rw [lexRun0]
  rw [if_neg h0, if_neg (by simp [hws]), hsym]
  rw [dif_neg (by simp [hl]), dif_neg (by simp [hd])]

theorem lexRun0_dropWhile_ws (l : List Char) :
    lexRun0 l = lexRun0 (l.dropWhile rustIsWhitespace) := by
  induction l with
  | nil => simp
  | cons c t ih =>
    by_cases hc : rustIsWhitespace c
    · rw [lexRun0_ws hc, List.dropWhile_cons, if_pos hc]
      exact ih
    · rw [List.dropWhile_cons, if_neg hc]

end RustLexer

namespace RustLexer

theorem drop_cons_chAt {m : List Char} {q : Nat} (hq : q < m.length) :
    m.drop q = chAt m q :: m.drop (q + 1) := by
  rw [chAt_lt hq]
  exact List.drop_eq_getElem_cons hq

set_option maxHeartbeats 1600000 in
theorem run_A {m : List Char} (hm : AllOneByte m) :
    ∀ f p, p ≤ m.length → m.length - p + 2 ≤ f →
      run f (mkA m p) = some (lexRun0 (m.drop p)) := by
  intro f
  induction f with
  | zero => intro p hp hf; omega
  | succ f ih =>
    intro p hp hf
    have hqle : p + wsLen m p ≤ m.length := wsLen_le hp
    have hnws : rustIsWhitespace (chAt m (p + wsLen m p)) = false :=
      chAt_skip_not_ws
    have hws_eq : lexRun0 (m.drop p) = lexRun0 (m.drop (p + wsLen m p)) := by
      rw [drop_skip, ← lexRun0_dropWhile_ws]
    by_cases h0 : chAt m (p + wsLen m p) = '\x00'
    · rw [run, next_A_exhaust hm hp h0, hws_eq]
      by_cases hqlt : p + wsLen m p < m.length
      · rw [drop_cons_chAt hqlt, h0, lexRun0_nul]
      · rw [List.drop_eq_nil_of_le (by omega), lexRun0_nil]
    · have hqlt : p + wsLen m p < m.length := chAt_q_lt hqle h0
      have hdropq : m.drop (p + wsLen m p)
          = chAt m (p + wsLen m p) :: m.drop (p + wsLen m p + 1) :=
        drop_cons_chAt hqlt
      cases hsym : symKind (chAt m (p + wsLen m p)) with
      | some k =>
        rw [run, next_A_sym hm hp h0 hsym]
        show (run f (mkA m (p + wsLen m p + 1))).map _ = _
        rw [ih (p + wsLen m p + 1) (by omega) (by omega)]
        rw [hws_eq, hdropq, lexRun0_sym h0 hnws hsym]
        rfl
      | none =>
        by_cases hl : isLetterChar (chAt m (p + wsLen m p)) = true
        · have hrun : (m.drop (p + wsLen m p)).takeWhile isLetterChar
              = chAt m (p + wsLen m p) ::
                (m.drop (p + wsLen m p + 1)).takeWhile isLetterChar := by
            rw [hdropq, List.takeWhile_cons, if_pos hl]
          have hlen1 : 0 < ((m.drop (p + wsLen m p)).takeWhile isLetterChar).length := by
            rw [hrun]; simp
          have hlen2 := tw_len_le isLetterChar (m.drop (p + wsLen m p))
          have hlen3 : (m.drop (p + wsLen m p)).length = m.length - (p + wsLen m p) := by
            simp
          rw [run, next_A_ident hm hp h0 hsym hl]
          show (run f (mkA m _)).map _ = _
          rw [ih (p + wsLen m p + ((m.drop (p + wsLen m p)).takeWhile isLetterChar).length)
            (by omega) (by omega)]
          rw [hws_eq]
          conv_rhs => rw [hdropq]
          rw [lexRun0_letter hl hsym]
          rw [← hdropq, dropWhile_eq_drop, List.drop_drop]
          rfl
        · by_cases hd : isAsciiDigit (chAt m (p + wsLen m p)) = true
          · have hrun : (m.drop (p + wsLen m p)).takeWhile isAsciiDigit
                = chAt m (p + wsLen m p) ::
                  (m.drop (p + wsLen m p + 1)).takeWhile isAsciiDigit := by
              rw [hdropq, List.takeWhile_cons, if_pos hd]
            have hlen1 : 0 < ((m.drop (p + wsLen m p)).takeWhile isAsciiDigit).length := by
              rw [hrun]; simp
            have hlen2 := tw_len_le isAsciiDigit (m.drop (p + wsLen m p))
            have hlen3 : (m.drop (p + wsLen m p)).length = m.length - (p + wsLen m p) := by
              simp
            rw [run, next_A_digit hm hp h0 hsym (by simp [hl]) hd]
            show (run f (mkA m _)).map _ = _
            rw [ih (p + wsLen m p + ((m.drop (p + wsLen m p)).takeWhile isAsciiDigit).length)
              (by omega) (by omega)]
            rw [hws_eq]
            conv_rhs => rw [hdropq]
            rw [lexRun0_digit (by simp [hl]) hd hsym]
            rw [← hdropq, dropWhile_eq_drop, List.drop_drop]
            rfl
          · rw [run, next_A_unknown hm hp h0 hsym (by simp [hl]) (by simp [hd])]
            show (run f (mkA m (p + wsLen m p + 1))).map _ = _
            rw [ih (p + wsLen m p + 1) (by omega) (by omega)]
            rw [hws_eq, hdropq,
              lexRun0_unknown h0 hnws (by simp [hl]) (by simp [hd]) hsym]
            rfl

end RustLexer

namespace RustLexer

theorem new_eq (m : List Char) : Lexer.new m = some (mkA m 0) := by
  unfold Lexer.new Lexer.read_char
  by_cases h0 : utf8Len m ≤ 0
  · have hm : m = [] := by
      have h1 := length_le_utf8Len m
      have h2 : m.length = 0 := by omega
      exact List.length_eq_zero.mp h2
    subst hm
    rw [if_pos (by simpa using h0)]
    rfl
  · rw [if_neg (by simpa using h0)]
    have hlen : 0 < m.length := by
      by_contra h2
      have h3 : m = [] := List.length_eq_zero.mp (by omega)
      subst h3
      exact h0 (by simp [utf8Len])
    have h2 : m.get? 0 = some m[0] := by
      rw [List.get?_eq_getElem?, List.getElem?_eq_getElem hlen]
    rw [h2]
    simp only [Option.some.injEq]
    show _ = mkA m 0
    unfold mkA
    rw [chAt_lt hlen]

/-- Scanning an all-ASCII input runs to completion and produces exactly
the token list of the reference recognizer. -/
theorem lex_ascii {m : List Char} (hm : AllOneByte m) :
    lex m = some (lexRun0 m) := by
  unfold lex
  rw [new_eq m]
  show run (utf8Len m + 2) (mkA m 0) = _
  rw [utf8Len_of_allOneByte hm]
  have h1 := run_A hm (m.length + 2) 0 (by omega) (by omega)
  simpa using h1

theorem lexRun0_concat :
    ∀ n l, l.length ≤ n → NoNul l →
      ((lexRun0 l).map Token.literal).flatten
        = l.filter (fun c => !rustIsWhitespace c) := by
  intro n
  induction n with
  | zero =>
    intro l hl _
    have h0 : l = [] := List.length_eq_zero.mp (by omega)
    subst h0
    rw [lexRun0_nil]
    rfl
  | succ n ih =>
    intro l hl hnn
    match l with
    | [] =>
      rw [lexRun0_nil]
      rfl
    | c :: cs =>
      have h0 : c ≠ '\x00' := hnn c (List.mem_cons_self c cs)
      have hcs : NoNul cs := fun x hx => hnn x (List.mem_cons_of_mem c hx)
      have hlcs : cs.length ≤ n := by
        simp only [List.length_cons] at hl
        omega
      by_cases hws : rustIsWhitespace c = true
      · rw [lexRun0_ws hws, List.filter_cons, if_neg (by simp [hws])]
        exact ih cs hlcs hcs
      · have hws2 : rustIsWhitespace c = false := by
          simpa using hws
        cases hsym : symKind c with
        | some k =>
          rw [lexRun0_sym h0 hws2 hsym, List.filter_cons,
            if_pos (by simp [hws2])]
          simp only [List.map_cons, List.flatten_cons]
          rw [ih cs hlcs hcs]
          rfl
        | none =>
          by_cases hletter : isLetterChar c = true
          · rw [lexRun0_letter hletter hsym]
            simp only [List.map_cons, List.flatten_cons]
            have hdw : ((c :: cs).dropWhile isLetterChar).length ≤ n := by
              rw [List.dropWhile_cons, if_pos hletter]
              have h9 := (List.dropWhile_sublist isLetterChar (l := cs)).length_le
              omega
            have hdwn : NoNul ((c :: cs).dropWhile isLetterChar) := fun x hx =>
              hnn x ((List.dropWhile_sublist isLetterChar).subset hx)
            rw [ih _ hdw hdwn]
            conv_rhs => rw [← List.takeWhile_append_dropWhile
              (p := isLetterChar) (l := c :: cs)]
            rw [List.filter_append]
            congr 1
            symm
            rw [List.filter_eq_self]
            intro a ha
            have hla := List.mem_takeWhile_imp ha
            simp [letter_not_ws hla]
          · by_cases hdigit : isAsciiDigit c = true
            · rw [lexRun0_digit (by simpa using hletter) hdigit hsym]
              simp only [List.map_cons, List.flatten_cons]
              have hdw : ((c :: cs).dropWhile isAsciiDigit).length ≤ n := by
                rw [List.dropWhile_cons, if_pos hdigit]
                have h9 := (List.dropWhile_sublist isAsciiDigit (l := cs)).length_le
                omega
              have hdwn : NoNul ((c :: cs).dropWhile isAsciiDigit) := fun x hx =>
                hnn x ((List.dropWhile_sublist isAsciiDigit).subset hx)
              rw [ih _ hdw hdwn]
              conv_rhs => rw [← List.takeWhile_append_dropWhile
                (p := isAsciiDigit) (l := c :: cs)]
              rw [List.filter_append]
              congr 1
              symm
              rw [List.filter_eq_self]
              intro a ha
              have hda := List.mem_takeWhile_imp ha
              simp [digit_not_ws hda]
            · rw [lexRun0_unknown h0 hws2 (by simpa using hletter)
                (by simpa using hdigit) hsym, List.filter_cons,
                if_pos (by simp [hws2])]
              simp only [List.map_cons, List.flatten_cons]
              rw [ih cs hlcs hcs]
              rfl

end RustLexer

namespace RustLexer

theorem lexRun0_literal_mem :
    ∀ n l, l.length ≤ n → ∀ t ∈ lexRun0 l, ∀ c2 ∈ t.literal, c2 ∈ l := by
  intro n
  induction n with
  | zero =>
    intro l hl t ht
    have h0 : l = [] := List.length_eq_zero.mp (by omega)
    subst h0
    rw [lexRun0_nil] at ht
    simp at ht
  | succ n ih =>
    intro l hl t ht c2 hc2
    match l with
    | [] =>
      rw [lexRun0_nil] at ht
      simp at ht
    | c :: cs =>
      have hlcs : cs.length ≤ n := by
        simp only [List.length_cons] at hl
        omega
      by_cases h0 : c = '\x00'
      · subst h0
        rw [lexRun0_nul] at ht
        simp at ht
      · by_cases hws : rustIsWhitespace c = true
        · rw [lexRun0_ws hws] at ht
          exact List.mem_cons_of_mem c (ih cs hlcs t ht c2 hc2)
        · have hws2 : rustIsWhitespace c = false := by simpa using hws
          cases hsym : symKind c with
          | some k =>
            rw [lexRun0_sym h0 hws2 hsym] at ht
            rcases List.mem_cons.mp ht with rfl | ht2
            · simp only at hc2
              rcases List.mem_singleton.mp hc2 with rfl
              exact List.mem_cons_self c2 cs
            · exact List.mem_cons_of_mem c (ih cs hlcs t ht2 c2 hc2)
          | none =>
            by_cases hletter : isLetterChar c = true
            · rw [lexRun0_letter hletter hsym] at ht
              rcases List.mem_cons.mp ht with rfl | ht2
              · exact (List.takeWhile_sublist isLetterChar).subset hc2
              · have hdw : ((c :: cs).dropWhile isLetterChar).length ≤ n := by
                  rw [List.dropWhile_cons, if_pos hletter]
                  have h9 := (List.dropWhile_sublist isLetterChar (l := cs)).length_le
                  omega
                exact (List.dropWhile_sublist isLetterChar).subset
                  (ih _ hdw t ht2 c2 hc2)
            · by_cases hdigit : isAsciiDigit c = true
              · rw [lexRun0_digit (by simpa using hletter) hdigit hsym] at ht
                rcases List.mem_cons.mp ht with rfl | ht2
                · exact (List.takeWhile_sublist isAsciiDigit).subset hc2
                · have hdw : ((c :: cs).dropWhile isAsciiDigit).length ≤ n := by
                    rw [List.dropWhile_cons, if_pos hdigit]
                    have h9 := (List.dropWhile_sublist isAsciiDigit (l := cs)).length_le
                    omega
                  exact (List.dropWhile_sublist isAsciiDigit).subset
                    (ih _ hdw t ht2 c2 hc2)
              · rw [lexRun0_unknown h0 hws2 (by simpa using hletter)
                  (by simpa using hdigit) hsym] at ht
                rcases List.mem_cons.mp ht with rfl | ht2
                · simp only at hc2
                  rcases List.mem_singleton.mp hc2 with rfl
                  exact List.mem_cons_self c2 cs
                · exact List.mem_cons_of_mem c (ih cs hlcs t ht2 c2 hc2)

/-- The predicate "is not the NUL character". -/
def notNul (c : Char) : Bool :=
  !(c == '\x00')

theorem notNul_iff {c : Char} : notNul c = true ↔ c ≠ '\x00' := by
  simp [notNul]

theorem lexRun0_takeWhile_nul :
    ∀ n l, l.length ≤ n → lexRun0 l = lexRun0 (l.takeWhile notNul) := by
  intro n
  induction n with
  | zero =>
    intro l hl
    have h0 : l = [] := List.length_eq_zero.mp (by omega)
    subst h0
    simp
  | succ n ih =>
    intro l hl
    match l with
    | [] => simp
    | c :: cs =>
      have hlcs : cs.length ≤ n := by
        simp only [List.length_cons] at hl
        omega
      by_cases h0 : c = '\x00'
      · subst h0
        rw [lexRun0_nul, List.takeWhile_cons, if_neg (by simp [notNul]),
          lexRun0_nil]
      · have hnn : notNul c = true := notNul_iff.mpr h0
        have hcons : (c :: cs).takeWhile notNul = c :: cs.takeWhile notNul := by
          rw [List.takeWhile_cons, if_pos hnn]
        by_cases hws : rustIsWhitespace c = true
        · rw [lexRun0_ws hws, hcons, lexRun0_ws hws]
          exact ih cs hlcs
        · have hws2 : rustIsWhitespace c = false := by simpa using hws
          cases hsym : symKind c with
          | some k =>
            rw [lexRun0_sym h0 hws2 hsym, hcons, lexRun0_sym h0 hws2 hsym,
              ih cs hlcs]
          | none =>
            by_cases hletter : isLetterChar c = true
            · have hsub : ∀ x, isLetterChar x = true → notNul x = true :=
                fun x hx => notNul_iff.mpr (letter_ne_nul hx)
              rw [lexRun0_letter hletter hsym, hcons,
                lexRun0_letter hletter hsym]
              rw [← hcons, takeWhile_sub hsub, dropWhile_takeWhile_comm hsub]
              have hdw : ((c :: cs).dropWhile isLetterChar).length ≤ n := by
                rw [List.dropWhile_cons, if_pos hletter]
                have h9 := (List.dropWhile_sublist isLetterChar (l := cs)).length_le
                omega
              rw [← ih _ hdw]
            · by_cases hdigit : isAsciiDigit c = true
              · have hsub : ∀ x, isAsciiDigit x = true → notNul x = true :=
                  fun x hx => notNul_iff.mpr (digit_ne_nul hx)
                rw [lexRun0_digit (by simpa using hletter) hdigit hsym, hcons,
                  lexRun0_digit (by simpa using hletter) hdigit hsym]
                rw [← hcons, takeWhile_sub hsub, dropWhile_takeWhile_comm hsub]
                have hdw : ((c :: cs).dropWhile isAsciiDigit).length ≤ n := by
                  rw [List.dropWhile_cons, if_pos hdigit]
                  have h9 := (List.dropWhile_sublist isAsciiDigit (l := cs)).length_le
                  omega
                rw [← ih _ hdw]
              · rw [lexRun0_unknown h0 hws2 (by simpa using hletter)
                  (by simpa using hdigit) hsym, hcons,
                  lexRun0_unknown h0 hws2 (by simpa using hletter)
                  (by simpa using hdigit) hsym, ih cs hlcs]

end RustLexer

namespace RustLexer

/-- State invariant on a NUL-free input strictly shorter (in characters)
than its byte length: the cursor has read only real characters so far. -/
def SInv (m : List Char) (l : Lexer) : Prop :=
  l.input = m ∧ l.read_position ≤ m.length ∧ l.ch ≠ '\x00'

theorem read_char_S {m : List Char} (hnn : NoNul m)
    (hmb : m.length < utf8Len m) {l : Lexer} (h1 : l.input = m)
    (h2 : l.read_position ≤ m.length) :
    Lexer.read_char l = none ∨
      ∃ l2, Lexer.read_char l = some l2 ∧ SInv m l2 := by
  unfold Lexer.read_char
  rw [h1]
  rw [if_neg (by omega)]
  by_cases h3 : l.read_position < m.length
  · right
    have h4 : m.get? l.read_position = some m[l.read_position] := by
      rw [List.get?_eq_getElem?, List.getElem?_eq_getElem h3]
    rw [h4]
    refine ⟨_, rfl, rfl, by simpa using h3, ?_⟩
    exact hnn _ (List.getElem_mem h3)
  · left
    have h4 : m.get? l.read_position = none := by
      rw [List.get?_eq_getElem?, List.getElem?_eq_none_iff]
      omega
    rw [h4]

theorem charLoop_S {m : List Char} (hnn : NoNul m)
    (hmb : m.length < utf8Len m) (pf : Char → Bool) :
    ∀ f l, SInv m l →
      Lexer.charLoop pf f l = none ∨
        ∃ l2, Lexer.charLoop pf f l = some l2 ∧ SInv m l2 := by
  intro f
  induction f with
  | zero => intro l _; left; rfl
  | succ f ih =>
    intro l hinv
    rw [show Lexer.charLoop pf (f + 1) l
      = if pf l.ch = true then (Lexer.read_char l).bind (Lexer.charLoop pf f)
        else some l from rfl]
    by_cases hc : pf l.ch = true
    · rw [if_pos hc]
      rcases read_char_S hnn hmb hinv.1 hinv.2.1 with hrc | ⟨l2, hrc, hinv2⟩
      · left
        rw [hrc]
        rfl
      · simp only [hrc, Option.some_bind]
        exact ih l2 hinv2
    · rw [if_neg hc]
      right
      exact ⟨l, rfl, hinv⟩

theorem next_S {m : List Char} (hnn : NoNul m) (hmb : m.length < utf8Len m)
    {l : Lexer} (hinv : SInv m l) :
    Lexer.next l = none ∨
      ∃ t l2, Lexer.next l = some (some (t, l2)) ∧ SInv m l2 := by
  rcases charLoop_S hnn hmb rustIsWhitespace (utf8Len l.input + 2) l hinv
    with hsk | ⟨l1, hsk, hinv1⟩
  · left
    have hsk2 : Lexer.skip_whitespace l = none := hsk
    show Lexer.next l = none
    unfold Lexer.next
    rw [hsk2]
    rfl
  · have hsk2 : Lexer.skip_whitespace l = some l1 := hsk
    have hnext : Lexer.next l =
        (if l1.ch = '\x00' then some none
         else
           match symKind l1.ch with
           | some k => (Lexer.consume_char l1).map (fun s => some (⟨k, s.1⟩, s.2))
           | none =>
             if Lexer.is_letter l1 then
               (Lexer.read_ident l1).map (fun s => some (⟨.Ident, s.1⟩, s.2))
             else if Lexer.is_digit l1 then
               (Lexer.read_number l1).map
                 (fun s => some (⟨.Literal .Int, s.1⟩, s.2))
             else
               (Lexer.consume_char l1).map
                 (fun s => some (⟨.Unknown, s.1⟩, s.2))) := by
      unfold Lexer.next
      rw [hsk2]
      rfl
    rw [hnext, if_neg hinv1.2.2]
    cases hsym : symKind l1.ch with
    | some k =>
      rcases read_char_S hnn hmb hinv1.1 hinv1.2.1 with hrc | ⟨l2, hrc, hinv2⟩
      · left
        show (Lexer.consume_char l1).map _ = none
        unfold Lexer.consume_char
        rw [hrc]
        rfl
      · right
        refine ⟨⟨k, [l1.ch]⟩, l2, ?_, hinv2⟩
        show (Lexer.consume_char l1).map _ = _
        unfold Lexer.consume_char
        rw [hrc]
        rfl
    | none =>
      by_cases hl : Lexer.is_letter l1 = true
      · rcases charLoop_S hnn hmb isLetterChar (utf8Len l1.input + 2) l1 hinv1
          with hcl | ⟨l2, hcl, hinv2⟩
        · left
          show (if Lexer.is_letter l1 = true then _ else _) = none
          rw [if_pos hl]
          unfold Lexer.read_ident
          rw [show Lexer.charLoop isLetterChar (utf8Len l1.input + 2) l1
            = none from hcl]
          rfl
        · cases hbs : byteSlice l1.input l1.position l2.position with
          | none =>
            left
            show (if Lexer.is_letter l1 = true then _ else _) = none
            rw [if_pos hl]
            unfold Lexer.read_ident
            rw [show Lexer.charLoop isLetterChar (utf8Len l1.input + 2) l1
              = some l2 from hcl]
            show ((byteSlice l1.input l1.position l2.position).map _).map _
              = none
            rw [hbs]
            rfl
          | some s =>
            right
            refine ⟨⟨.Ident, s⟩, l2, ?_, hinv2⟩
            show (if Lexer.is_letter l1 = true then _ else _) = _
            rw [if_pos hl]
            unfold Lexer.read_ident
            rw [show Lexer.charLoop isLetterChar (utf8Len l1.input + 2) l1
              = some l2 from hcl]
            show ((byteSlice l1.input l1.position l2.position).map _).map _
              = _
            rw [hbs]
            rfl
      · by_cases hd : Lexer.is_digit l1 = true
        · rcases charLoop_S hnn hmb isAsciiDigit (utf8Len l1.input + 2) l1 hinv1
            with hcl | ⟨l2, hcl, hinv2⟩
          · left
            show (if Lexer.is_letter l1 = true then _
              else if Lexer.is_digit l1 = true then _ else _) = none
            rw [if_neg hl, if_pos hd]
            unfold Lexer.read_number
            rw [show Lexer.charLoop isAsciiDigit (utf8Len l1.input + 2) l1
              = none from hcl]
            rfl
          · cases hbs : byteSlice l1.input l1.position l2.position with
            | none =>
              left
              show (if Lexer.is_letter l1 = true then _
                else if Lexer.is_digit l1 = true then _ else _) = none
              rw [if_neg hl, if_pos hd]
              unfold Lexer.read_number
              rw [show Lexer.charLoop isAsciiDigit (utf8Len l1.input + 2) l1
                = some l2 from hcl]
              show ((byteSlice l1.input l1.position l2.position).map _).map _
                = none
              rw [hbs]
              rfl
            | some s =>
              right
              refine ⟨⟨.Literal .Int, s⟩, l2, ?_, hinv2⟩
              show (if Lexer.is_letter l1 = true then _
                else if Lexer.is_digit l1 = true then _ else _) = _
              rw [if_neg hl, if_pos hd]
              unfold Lexer.read_number
              rw [show Lexer.charLoop isAsciiDigit (utf8Len l1.input + 2) l1
                = some l2 from hcl]
              show ((byteSlice l1.input l1.position l2.position).map _).map _
                = _
              rw [hbs]
              rfl
        · rcases read_char_S hnn hmb hinv1.1 hinv1.2.1 with hrc | ⟨l2, hrc, hinv2⟩
          · left
            show (if Lexer.is_letter l1 = true then _
              else if Lexer.is_digit l1 = true then _ else _) = none
            rw [if_neg hl, if_neg hd]
            unfold Lexer.consume_char
            rw [hrc]
            rfl
          · right
            refine ⟨⟨.Unknown, [l1.ch]⟩, l2, ?_, hinv2⟩
            show (if Lexer.is_letter l1 = true then _
              else if Lexer.is_digit l1 = true then _ else _) = _
            rw [if_neg hl, if_neg hd]
            unfold Lexer.consume_char
            rw [hrc]
            rfl

theorem run_S {m : List Char} (hnn : NoNul m) (hmb : m.length < utf8Len m) :
    ∀ f l, SInv m l → run f l = none := by
  intro f
  induction f with
  | zero => intro l _; rfl
  | succ f ih =>
    intro l hinv
    rcases next_S hnn hmb hinv with hn | ⟨t, l2, hn, hinv2⟩
    · rw [run, hn]
    · rw [run, hn]
      show (run f l2).map _ = none
      rw [ih l2 hinv2]
      rfl

/-- Scanning a NUL-free input that contains at least one multi-byte
character always panics. -/
theorem lex_nonascii {m : List Char} (hnn : NoNul m)
    (hmb : ¬ AllOneByte m) : lex m = none := by
  have hlt : m.length < utf8Len m := length_lt_utf8Len hmb
  have hne : m ≠ [] := by
    intro h0
    subst h0
    exact hmb (fun c hc => absurd hc (List.not_mem_nil c))
  have hlen : 0 < m.length := List.length_pos.mpr hne
  unfold lex
  rw [new_eq m]
  show run (utf8Len m + 2) (mkA m 0) = none
  refine run_S hnn hlt _ _ ⟨rfl, by simpa using hlen, ?_⟩
  show chAt m 0 ≠ '\x00'
  rw [chAt_lt hlen]
  exact hnn _ (List.getElem_mem hlen)

end RustLexer

namespace RustLexer

/-- Cursor bound restored by every successful advance: whenever the current
character is not the sentinel, the last read was inside the byte bound. -/
def RInv (l : Lexer) : Prop :=
  l.ch ≠ '\x00' → l.read_position ≤ utf8Len l.input

theorem read_char_step {l l2 : Lexer} (h : Lexer.read_char l = some l2) :
    l2.read_position = l.read_position + 1 ∧ l2.input = l.input ∧ RInv l2 := by
  unfold Lexer.read_char at h
  by_cases h1 : utf8Len l.input ≤ l.read_position
  · rw [if_pos h1] at h
    injection h with h3
    subst h3
    exact ⟨rfl, rfl, fun hch => absurd rfl hch⟩
  · rw [if_neg h1] at h
    cases h2 : l.input.get? l.read_position with
    | none =>
      rw [h2] at h
      cases h
    | some c =>
      rw [h2] at h
      injection h with h3
      subst h3
      exact ⟨rfl, rfl, fun _ => by
        show l.read_position + 1 ≤ utf8Len l.input
        omega⟩

theorem charLoop_mono (pf : Char → Bool) :
    ∀ f l l2, Lexer.charLoop pf f l = some l2 →
      l.read_position ≤ l2.read_position ∧ l2.input = l.input ∧
        (RInv l → RInv l2) := by
  intro f
  induction f with
  | zero => intro l l2 h; cases h
  | succ f ih =>
    intro l l2 h
    rw [show Lexer.charLoop pf (f + 1) l
      = if pf l.ch = true then (Lexer.read_char l).bind (Lexer.charLoop pf f)
        else some l from rfl] at h
    by_cases hc : pf l.ch = true
    · rw [if_pos hc] at h
      cases hrc : Lexer.read_char l with
      | none =>
        rw [hrc] at h
        cases h
      | some l3 =>
        rw [hrc] at h
        replace h : Lexer.charLoop pf f l3 = some l2 := h
        obtain ⟨hs1, hs2, hs3⟩ := read_char_step hrc
        obtain ⟨hm1, hm2, hm3⟩ := ih l3 l2 h
        refine ⟨by omega, by rw [hm2, hs2], fun _ => hm3 hs3⟩
    · rw [if_neg hc] at h
      injection h with h3
      subst h3
      exact ⟨le_refl _, rfl, id⟩

theorem charLoop_strict (pf : Char → Bool) {l l2 : Lexer}
    (hc : pf l.ch = true) {f : Nat}
    (h : Lexer.charLoop pf f l = some l2) :
    l.read_position < l2.read_position := by
  match f with
  | 0 => cases h
  | f + 1 =>
    rw [show Lexer.charLoop pf (f + 1) l
      = if pf l.ch = true then (Lexer.read_char l).bind (Lexer.charLoop pf f)
        else some l from rfl, if_pos hc] at h
    cases hrc : Lexer.read_char l with
    | none =>
      rw [hrc] at h
      cases h
    | some l3 =>
      rw [hrc] at h
      replace h : Lexer.charLoop pf f l3 = some l2 := h
      obtain ⟨hs1, _, _⟩ := read_char_step hrc
      obtain ⟨hm1, _, _⟩ := charLoop_mono pf f l3 l2 h
      omega

/-- At the sentinel character the iterator signals exhaustion. -/
theorem nul_next {l : Lexer} (h0 : l.ch = '\x00') :
    Lexer.next l = some none := by
  have h1 : Lexer.skip_whitespace l = some l := by
    unfold Lexer.skip_whitespace
    rw [show Lexer.charLoop rustIsWhitespace (utf8Len l.input + 2) l
      = if rustIsWhitespace l.ch = true then
          (Lexer.read_char l).bind (Lexer.charLoop rustIsWhitespace
            (utf8Len l.input + 1))
        else some l from rfl]
    rw [if_neg (by rw [h0, ws_nul]; simp)]
  unfold Lexer.next
  rw [h1]
  show (if l.ch = '\x00' then some none else _) = some none
  rw [if_pos h0]

/-- What one successful token-producing call to `next` guarantees: the
cursor strictly advances, the input is unchanged, the cursor bound is
preserved, and the token kind is never `WhiteSpace` or `Eof`. -/
theorem next_some_spec {l : Lexer} {t : Token} {l2 : Lexer}
    (h : Lexer.next l = some (some (t, l2))) :
    l.read_position < l2.read_position ∧ l2.input = l.input ∧
      (RInv l → RInv l2) ∧ t.kind ≠ .WhiteSpace ∧ t.kind ≠ .Eof := by
  cases hsk : Lexer.charLoop rustIsWhitespace (utf8Len l.input + 2) l with
  | none =>
    have h1 : Lexer.next l = none := by
      have hsk2 : Lexer.skip_whitespace l = none := hsk
      unfold Lexer.next
      rw [hsk2]
      rfl
    rw [h1] at h
    cases h
  | some l1 =>
    have hsk2 : Lexer.skip_whitespace l = some l1 := hsk
    obtain ⟨hm1, hm2, hm3⟩ := charLoop_mono rustIsWhitespace _ l l1 hsk
    have hnext : Lexer.next l =
        (if l1.ch = '\x00' then some none
         else
           match symKind l1.ch with
           | some k => (Lexer.consume_char l1).map (fun s => some (⟨k, s.1⟩, s.2))
           | none =>
             if Lexer.is_letter l1 then
               (Lexer.read_ident l1).map (fun s => some (⟨.Ident, s.1⟩, s.2))
             else if Lexer.is_digit l1 then
               (Lexer.read_number l1).map
                 (fun s => some (⟨.Literal .Int, s.1⟩, s.2))
             else
               (Lexer.consume_char l1).map
                 (fun s => some (⟨.Unknown, s.1⟩, s.2))) := by
      unfold Lexer.next
      rw [hsk2]
      rfl
    rw [hnext] at h
    by_cases hch1 : l1.ch = '\x00'
    · rw [if_pos hch1] at h
      simp at h
    · rw [if_neg hch1] at h
      cases hsym : symKind l1.ch with
      | some k =>
        rw [hsym] at h
        replace h : (Lexer.consume_char l1).map
            (fun s => some ((⟨k, s.1⟩ : Token), s.2)) = some (some (t, l2)) := h
        unfold Lexer.consume_char at h
        cases hrc : Lexer.read_char l1 with
        | none =>
          rw [hrc] at h
          simp at h
        | some l3 =>
          rw [hrc] at h
          replace h : some (some ((⟨k, [l1.ch]⟩ : Token), l3))
              = some (some (t, l2)) := h
          obtain ⟨hs1, hs2, hs3⟩ := read_char_step hrc
          simp only [Option.some.injEq, Prod.mk.injEq] at h
          obtain ⟨ht, hl2⟩ := h
          subst hl2
          refine ⟨by omega, by rw [hs2, hm2], fun hR => hs3, ?_, ?_⟩
          · rw [← ht]
            exact (symKind_kind hsym).1
          · rw [← ht]
            exact (symKind_kind hsym).2
      | none =>
        rw [hsym] at h
        by_cases hl : Lexer.is_letter l1 = true
        · replace h : (if Lexer.is_letter l1 = true then
              (Lexer.read_ident l1).map
                (fun s => some ((⟨.Ident, s.1⟩ : Token), s.2))
            else if Lexer.is_digit l1 = true then
              (Lexer.read_number l1).map
                (fun s => some ((⟨.Literal .Int, s.1⟩ : Token), s.2))
            else
              (Lexer.consume_char l1).map
                (fun s => some ((⟨.Unknown, s.1⟩ : Token), s.2)))
              = some (some (t, l2)) := h
          rw [if_pos hl] at h
          unfold Lexer.read_ident at h
          cases hcl : Lexer.charLoop isLetterChar (utf8Len l1.input + 2) l1 with
          | none =>
            rw [hcl] at h
            simp at h
          | some l3 =>
            rw [hcl] at h
            replace h : ((byteSlice l1.input l1.position l3.position).map
                (fun s => (s, l3))).map
                  (fun s => some ((⟨.Ident, s.1⟩ : Token), s.2))
                = some (some (t, l2)) := h
            cases hbs : byteSlice l1.input l1.position l3.position with
            | none =>
              rw [hbs] at h
              simp at h
            | some s =>
              rw [hbs] at h
              replace h : some (some ((⟨.Ident, s⟩ : Token), l3))
                  = some (some (t, l2)) := h
              simp only [Option.some.injEq, Prod.mk.injEq] at h
              obtain ⟨ht, hl2⟩ := h
              subst hl2
              have hstr := charLoop_strict isLetterChar hl hcl
              obtain ⟨hm1', hm2', hm3'⟩ :=
                charLoop_mono isLetterChar _ l1 l3 hcl
              refine ⟨by omega, by rw [hm2', hm2], fun hR => hm3' (hm3 hR),
                ?_, ?_⟩
              · rw [← ht]
                show TokenKind.Ident ≠ TokenKind.WhiteSpace
                decide
              · rw [← ht]
                show TokenKind.Ident ≠ TokenKind.Eof
                decide
        · replace h : (if Lexer.is_letter l1 = true then
              (Lexer.read_ident l1).map
                (fun s => some ((⟨.Ident, s.1⟩ : Token), s.2))
            else if Lexer.is_digit l1 = true then
              (Lexer.read_number l1).map
                (fun s => some ((⟨.Literal .Int, s.1⟩ : Token), s.2))
            else
              (Lexer.consume_char l1).map
                (fun s => some ((⟨.Unknown, s.1⟩ : Token), s.2)))
              = some (some (t, l2)) := h
          rw [if_neg hl] at h
          by_cases hd : Lexer.is_digit l1 = true
          · rw [if_pos hd] at h
            unfold Lexer.read_number at h
            cases hcl : Lexer.charLoop isAsciiDigit (utf8Len l1.input + 2) l1 with
            | none =>
              rw [hcl] at h
              simp at h
            | some l3 =>
              rw [hcl] at h
              replace h : ((byteSlice l1.input l1.position l3.position).map
                  (fun s => (s, l3))).map
                    (fun s => some ((⟨.Literal .Int, s.1⟩ : Token), s.2))
                  = some (some (t, l2)) := h
              cases hbs : byteSlice l1.input l1.position l3.position with
              | none =>
                rw [hbs] at h
                simp at h
              | some s =>
                rw [hbs] at h
                replace h : some (some ((⟨.Literal .Int, s⟩ : Token), l3))
                    = some (some (t, l2)) := h
                simp only [Option.some.injEq, Prod.mk.injEq] at h
                obtain ⟨ht, hl2⟩ := h
                subst hl2
                have hstr := charLoop_strict isAsciiDigit hd hcl
                obtain ⟨hm1', hm2', hm3'⟩ :=
                  charLoop_mono isAsciiDigit _ l1 l3 hcl
                refine ⟨by omega, by rw [hm2', hm2], fun hR => hm3' (hm3 hR),
                  ?_, ?_⟩
                · rw [← ht]
                  show TokenKind.Literal LiteralKind.Int ≠ TokenKind.WhiteSpace
                  decide
                · rw [← ht]
                  show TokenKind.Literal LiteralKind.Int ≠ TokenKind.Eof
                  decide
          · rw [if_neg hd] at h
            unfold Lexer.consume_char at h
            cases hrc : Lexer.read_char l1 with
            | none =>
              rw [hrc] at h
              simp at h
            | some l3 =>
              rw [hrc] at h
              replace h : some (some ((⟨.Unknown, [l1.ch]⟩ : Token), l3))
                  = some (some (t, l2)) := h
              obtain ⟨hs1, hs2, hs3⟩ := read_char_step hrc
              simp only [Option.some.injEq, Prod.mk.injEq] at h
              obtain ⟨ht, hl2⟩ := h
              subst hl2
              refine ⟨by omega, by rw [hs2, hm2], fun hR => hs3, ?_, ?_⟩
              · rw [← ht]
                show TokenKind.Unknown ≠ TokenKind.WhiteSpace
                decide
              · rw [← ht]
                show TokenKind.Unknown ≠ TokenKind.Eof
                decide

end RustLexer

namespace RustLexer

theorem run_stable :
    ∀ k f l, RInv l → utf8Len l.input + 1 ≤ l.read_position + k → k < f →
      run f l = run (k + 1) l := by
  intro k
  induction k with
  | zero =>
    intro f l hR hb hf
    have hch : l.ch = '\x00' := by
      by_contra hc
      have := hR hc
      omega
    have hnx := nul_next hch
    match f, hf with
    | f + 1, _ => rw [run, hnx, run, hnx]
  | succ k ih =>
    intro f l hR hb hf
    match f, hf with
    | f + 1, hf =>
      cases hnx : Lexer.next l with
      | none => rw [run, hnx, run, hnx]
      | some o =>
        cases o with
        | none => rw [run, hnx, run, hnx]
        | some tl =>
          obtain ⟨t, l2⟩ := tl
          obtain ⟨hadv, hinp, hRp, _, _⟩ := next_some_spec hnx
          rw [run, hnx, run, hnx]
          show (run f l2).map _ = (run (k + 1) l2).map _
          rw [ih f l2 (hRp hR) (by rw [hinp]; omega) (by omega)]

/-- Any fuel of at least `utf8Len input + 2` computes the same token stream
as `lex`: the pull loop reaches a terminal outcome (exhaustion or panic)
within that many pulls. -/
theorem run_fuel_indep (m : List Char) :
    ∀ f, utf8Len m + 2 ≤ f → (Lexer.new m).bind (run f) = lex m := by
  intro f hf
  unfold lex
  rw [new_eq m]
  show run f (mkA m 0) = run (utf8Len m + 2) (mkA m 0)
  have hR : RInv (mkA m 0) := by
    intro hch
    show 0 + 1 ≤ utf8Len (mkA m 0).input
    have h1 : m ≠ [] := by
      intro h0
      subst h0
      exact hch rfl
    have h2 : 0 < m.length := List.length_pos.mpr h1
    have h3 := length_le_utf8Len m
    show 0 + 1 ≤ utf8Len m
    omega
  have hb : utf8Len (mkA m 0).input + 1 ≤ (mkA m 0).read_position + utf8Len m := by
    show utf8Len m + 1 ≤ 0 + 1 + utf8Len m
    omega
  rw [run_stable (utf8Len m) f (mkA m 0) hR hb (by omega),
    run_stable (utf8Len m) (utf8Len m + 2) (mkA m 0) hR hb (by omega)]

end RustLexer

namespace RustLexer

theorem letter_symKind_none {c : Char} (h : isLetterChar c = true) :
    symKind c = none := by
  have hne : ∀ d : Char, isLetterChar d = false → ¬((c == d) = true) := by
    intro d hd hcd
    rw [beq_iff_eq] at hcd
    subst hcd
    rw [h] at hd
    cases hd
  unfold symKind
  rw [if_neg (hne ';' (by decide)),
    if_neg (hne ',' (by decide)),
    if_neg (hne '.' (by decide)),
    if_neg (hne '(' (by decide)),
    if_neg (hne ')' (by decide)),
    if_neg (hne '{' (by decide)),
    if_neg (hne '}' (by decide)),
    if_neg (hne '[' (by decide)),
    if_neg (hne ']' (by decide)),
    if_neg (hne '@' (by decide)),
    if_neg (hne '#' (by decide)),
    if_neg (hne '~' (by decide)),
    if_neg (hne '!' (by decide)),
    if_neg (hne '=' (by decide)),
    if_neg (hne '+' (by decide)),
    if_neg (hne '-' (by decide)),
    if_neg (hne '*' (by decide)),
    if_neg (hne '/' (by decide)),
    if_neg (hne '<' (by decide)),
    if_neg (hne '>' (by decide)),
    if_neg (hne '&' (by decide)),
    if_neg (hne '|' (by decide)),
    if_neg (hne '^' (by decide)),
    if_neg (hne ':' (by decide)),
    if_neg (hne '?' (by decide)),
    if_neg (hne '$' (by decide)),
    if_neg (hne '%' (by decide))]

theorem digit_symKind_none {c : Char} (h : isAsciiDigit c = true) :
    symKind c = none := by
  have hne : ∀ d : Char, isAsciiDigit d = false → ¬((c == d) = true) := by
    intro d hd hcd
    rw [beq_iff_eq] at hcd
    subst hcd
    rw [h] at hd
    cases hd
  unfold symKind
  rw [if_neg (hne ';' (by decide)),
    if_neg (hne ',' (by decide)),
    if_neg (hne '.' (by decide)),
    if_neg (hne '(' (by decide)),
    if_neg (hne ')' (by decide)),
    if_neg (hne '{' (by decide)),
    if_neg (hne '}' (by decide)),
    if_neg (hne '[' (by decide)),
    if_neg (hne ']' (by decide)),
    if_neg (hne '@' (by decide)),
    if_neg (hne '#' (by decide)),
    if_neg (hne '~' (by decide)),
    if_neg (hne '!' (by decide)),
    if_neg (hne '=' (by decide)),
    if_neg (hne '+' (by decide)),
    if_neg (hne '-' (by decide)),
    if_neg (hne '*' (by decide)),
    if_neg (hne '/' (by decide)),
    if_neg (hne '<' (by decide)),
    if_neg (hne '>' (by decide)),
    if_neg (hne '&' (by decide)),
    if_neg (hne '|' (by decide)),
    if_neg (hne '^' (by decide)),
    if_neg (hne ':' (by decide)),
    if_neg (hne '?' (by decide)),
    if_neg (hne '$' (by decide)),
    if_neg (hne '%' (by decide))]

theorem digit_not_letter {c : Char} (h : isAsciiDigit c = true) :
    isLetterChar c = false := by
  by_cases hl : isLetterChar c = true
  · rw [letter_not_digit hl] at h
    cases h
  · simpa using hl

theorem lexRun0_all_ws {m : List Char}
    (h : ∀ c ∈ m, rustIsWhitespace c = true) : lexRun0 m = [] := by
  induction m with
  | nil => exact lexRun0_nil
  | cons c t ih =>
    rw [lexRun0_ws (h c (List.mem_cons_self c t))]
    exact ih (fun x hx => h x (List.mem_cons_of_mem c hx))

end RustLexer

namespace RustLexer

/-- C1: the claim says producing the next token never panics on any valid
Unicode input.  The code panics: on input "é" (one character, two UTF-8
bytes) the byte-length bound check in `read_char` passes at read position
1 but `chars().nth(1)` finds no character, so the `.unwrap()` aborts; the
whole scan evaluates to `none` (panic), not to a token stream. -/
theorem c1_panic_on_multibyte : lex ['é'] = none := by decide

/-- C3: the claim says a character outside the recognized set becomes a
one-character `Unknown` token and scanning continues.  The character
U+20AC is outside the recognized set (not a symbol, not alphabetic, not a
digit, not whitespace), yet scanning "€" panics (evaluates to `none`)
inside `consume_char`, because `read_char` then indexes past the character
count while still inside the byte count. -/
theorem c3_panic_on_unknown_multibyte :
    lex ['€'] = none ∧ symKind '€' = none ∧ isLetterChar '€' = false ∧
      isAsciiDigit '€' = false ∧ rustIsWhitespace '€' = false := by decide

/-- C4: after every successful advance (`read_char` returning a state
rather than panicking), the cursor invariant holds with positions measured
in characters: `read_position = position + 1`, the input is unchanged, and
`ch` is the character of the input at index `position`, or the NUL
sentinel when `position` is at or past the input's length in characters
(`chAt` is exactly that description). -/
theorem c4_cursor_invariant (l l2 : Lexer)
    (h : Lexer.read_char l = some l2) :
    l2.read_position = l2.position + 1 ∧ l2.input = l.input ∧
      l2.ch = chAt l.input l2.position := by
  unfold Lexer.read_char at h
  by_cases h1 : utf8Len l.input ≤ l.read_position
  · rw [if_pos h1] at h
    injection h with h3
    subst h3
    refine ⟨rfl, rfl, ?_⟩
    show '\x00' = chAt l.input l.read_position
    have h4 := length_le_utf8Len l.input
    rw [chAt_ge (by omega)]
  · rw [if_neg h1] at h
    cases h2 : l.input.get? l.read_position with
    | none =>
      rw [h2] at h
      cases h
    | some c =>
      rw [h2] at h
      injection h with h3
      subst h3
      refine ⟨rfl, rfl, ?_⟩
      show c = chAt l.input l.read_position
      rw [List.get?_eq_getElem?, List.getElem?_eq_some] at h2
      obtain ⟨h5, h6⟩ := h2
      rw [chAt_lt h5, h6]

theorem c4_witness :
    (⟨['a'], 0, 1, 'a'⟩ : Lexer).read_position
      = (⟨['a'], 0, 1, 'a'⟩ : Lexer).position + 1 ∧
    (⟨['a'], 0, 1, 'a'⟩ : Lexer).input = ['a'] ∧
    (⟨['a'], 0, 1, 'a'⟩ : Lexer).ch
      = chAt ['a'] (⟨['a'], 0, 1, 'a'⟩ : Lexer).position :=
  c4_cursor_invariant ⟨['a'], 0, 0, 'x'⟩ ⟨['a'], 0, 1, 'a'⟩ (by decide)

/-- The 27 single-character symbols and their token kinds, as tabulated in
the spec (section 4.2). -/
def symbolTable : List (Char × TokenKind) :=
  [(';', .Semi), (',', .Comma), ('.', .Dot), ('(', .OpenParen),
   (')', .CloseParen), ('{', .OpenBrace), ('}', .CloseBrace),
   ('[', .OpenBracket), (']', .CloseBracket), ('@', .At), ('#', .Pound),
   ('~', .Tilde), ('!', .Bang), ('=', .Eq), ('+', .Plus), ('-', .Minus),
   ('*', .Star), ('/', .Slash), ('<', .Lt), ('>', .Gt), ('&', .And),
   ('|', .Or), ('^', .Caret), (':', .Colon), ('?', .Question),
   ('$', .Dollar), ('%', .Percent)]

/-- C7: for each of the 27 single-character symbols, the one-character
input holding only that symbol scans to exactly one token of the matching
kind whose literal is that symbol, after which exhaustion is signaled
(the stream is the one-element list). -/
theorem c7_single_symbol (c : Char) (k : TokenKind)
    (h : (c, k) ∈ symbolTable) :
    lex [c] = some [⟨k, [c]⟩] := by
  fin_cases h <;> decide

theorem c7_witness : lex [';'] = some [⟨.Semi, [';']⟩] :=
  c7_single_symbol ';' .Semi (by decide)

/-- C2 counterexample: on the input consisting of the single character
NUL, the scan completes with zero tokens, but the input with whitespace
removed is not empty — concatenating the literals does not reconstruct
the non-whitespace characters of this input. -/
theorem c2_counterexample :
    lex ['\x00'] = some [] ∧
    ((([] : List Token).map Token.literal).flatten
      ≠ ['\x00'].filter (fun c => !rustIsWhitespace c)) := by decide

/-- C2 amended: for every input containing no NUL character, whenever the
scan completes (produces a token stream rather than panicking), the
concatenation of the literals is exactly the input with its whitespace
characters removed. -/
theorem c2_concat_filter (m : List Char) (ts : List Token) (hnn : NoNul m)
    (h : lex m = some ts) :
    (ts.map Token.literal).flatten
      = m.filter (fun c => !rustIsWhitespace c) := by
  by_cases hm : AllOneByte m
  · rw [lex_ascii hm] at h
    injection h with h2
    subst h2
    exact lexRun0_concat m.length m (le_refl _) hnn
  · rw [lex_nonascii hnn hm] at h
    cases h

theorem c2_witness :
    (([(⟨.Ident, ['a']⟩ : Token), ⟨.Ident, ['b']⟩].map Token.literal).flatten
      = ['a', ' ', 'b'].filter (fun c => !rustIsWhitespace c)) :=
  c2_concat_filter ['a', ' ', 'b'] [⟨.Ident, ['a']⟩, ⟨.Ident, ['b']⟩]
    (by decide) (by decide)

end RustLexer

namespace RustLexer

/-- C5 counterexample: on input "éz" followed by NUL, the scanner is
positioned (as built by `Lexer::new`) at the alphabetic character é, yet
the `Ident` token it returns has literal "é" — not the maximal
alphabetic-or-underscore run "éz".  The byte slice
`input[0..2]` covers exactly the two UTF-8 bytes of é, silently dropping
the z. -/
theorem c5_counterexample :
    Lexer.new ['é', 'z', '\x00'] = some (mkA ['é', 'z', '\x00'] 0) ∧
    Lexer.is_letter (mkA ['é', 'z', '\x00'] 0) = true ∧
    Lexer.next (mkA ['é', 'z', '\x00'] 0) =
      some (some (⟨.Ident, ['é']⟩, ⟨['é', 'z', '\x00'], 2, 3, '\x00'⟩)) ∧
    ['é', 'z', '\x00'].takeWhile isLetterChar = ['é', 'z'] ∧
    ['é'] ≠ ['é', 'z', '\x00'].takeWhile isLetterChar := by decide

/-- C5 amended: on inputs of one-byte (ASCII) characters, whenever the
current character is alphabetic or underscore, the scanner returns an
`Ident` token whose literal is the maximal run of
alphabetic-or-underscore characters from that position; every character
of the run satisfies the same letter predicate and none is an ASCII
digit. -/
theorem c5_ident_maximal (m : List Char) (p : Nat) (hm : AllOneByte m)
    (hp : p ≤ m.length) (hl : isLetterChar (chAt m p) = true) :
    Lexer.next (mkA m p) =
      some (some (⟨.Ident, (m.drop p).takeWhile isLetterChar⟩,
        mkA m (p + ((m.drop p).takeWhile isLetterChar).length))) ∧
    ∀ c ∈ (m.drop p).takeWhile isLetterChar,
      isLetterChar c = true ∧ isAsciiDigit c = false := by
  have hplt : p < m.length := by
    by_contra hge
    rw [chAt_ge (by omega), letter_nul] at hl
    cases hl
  have hws0 : wsLen m p = 0 := by
    unfold wsLen
    rw [drop_cons_chAt hplt, List.takeWhile_cons,
      if_neg (by simp [letter_not_ws hl])]
    rfl
  have h0 : chAt m (p + wsLen m p) ≠ '\x00' := by
    rw [hws0, Nat.add_zero]
    exact letter_ne_nul hl
  have hsym : symKind (chAt m (p + wsLen m p)) = none := by
    rw [hws0, Nat.add_zero]
    exact letter_symKind_none hl
  have hl2 : isLetterChar (chAt m (p + wsLen m p)) = true := by
    rw [hws0, Nat.add_zero]
    exact hl
  have hmain := next_A_ident hm hp h0 hsym hl2
  rw [hws0, Nat.add_zero] at hmain
  refine ⟨hmain, fun c hc => ?_⟩
  have hlc := List.mem_takeWhile_imp hc
  exact ⟨hlc, letter_not_digit hlc⟩

theorem c5_witness :
    Lexer.next (mkA ['a', 'b', '1'] 0) =
      some (some (⟨.Ident, ['a', 'b']⟩, mkA ['a', 'b', '1'] 2)) :=
  (c5_ident_maximal ['a', 'b', '1'] 0 (by decide) (by decide) (by decide)).1

/-- C6 counterexample: after the scanner (started on input "€55" followed
by NUL) has produced the `Unknown` token for €, it sits on the ASCII
digit 5 in a cursor-consistent state — but the next call panics
(evaluates to `none`) instead of returning a `Literal Int` token, because
`read_number` slices `input[1..3]`, byte offsets that fall inside the
three-byte encoding of €. -/
theorem c6_counterexample :
    Lexer.new ['€', '5', '5', '\x00'] = some (mkA ['€', '5', '5', '\x00'] 0) ∧
    Lexer.next (mkA ['€', '5', '5', '\x00'] 0) =
      some (some (⟨.Unknown, ['€']⟩, mkA ['€', '5', '5', '\x00'] 1)) ∧
    Lexer.is_digit (mkA ['€', '5', '5', '\x00'] 1) = true ∧
    Lexer.next (mkA ['€', '5', '5', '\x00'] 1) = none := by decide

/-- C6 amended: on inputs of one-byte (ASCII) characters, whenever the
current character is an ASCII digit, the scanner returns a `Literal Int`
token whose literal is the maximal run of ASCII digits from that
position; and the input "5.0" scans to exactly the three tokens
`Literal Int "5"`, `Dot "."`, `Literal Int "0"` in order. -/
theorem c6_digit_maximal (m : List Char) (p : Nat) (hm : AllOneByte m)
    (hp : p ≤ m.length) (hd : isAsciiDigit (chAt m p) = true) :
    (Lexer.next (mkA m p) =
      some (some (⟨.Literal .Int, (m.drop p).takeWhile isAsciiDigit⟩,
        mkA m (p + ((m.drop p).takeWhile isAsciiDigit).length)))) ∧
    lex ['5', '.', '0'] = some
      [⟨.Literal .Int, ['5']⟩, ⟨.Dot, ['.']⟩, ⟨.Literal .Int, ['0']⟩] := by
  have hplt : p < m.length := by
    by_contra hge
    rw [chAt_ge (by omega), digit_nul] at hd
    cases hd
  have hws0 : wsLen m p = 0 := by
    unfold wsLen
    rw [drop_cons_chAt hplt, List.takeWhile_cons,
      if_neg (by simp [digit_not_ws hd])]
    rfl
  have h0 : chAt m (p + wsLen m p) ≠ '\x00' := by
    rw [hws0, Nat.add_zero]
    exact digit_ne_nul hd
  have hsym : symKind (chAt m (p + wsLen m p)) = none := by
    rw [hws0, Nat.add_zero]
    exact digit_symKind_none hd
  have hl2 : isLetterChar (chAt m (p + wsLen m p)) = false := by
    rw [hws0, Nat.add_zero]
    exact digit_not_letter hd
  have hd2 : isAsciiDigit (chAt m (p + wsLen m p)) = true := by
    rw [hws0, Nat.add_zero]
    exact hd
  have hmain := next_A_digit hm hp h0 hsym hl2 hd2
  rw [hws0, Nat.add_zero] at hmain
  exact ⟨hmain, by decide⟩

theorem c6_witness :
    Lexer.next (mkA ['1', '2', '.'] 0) =
      some (some (⟨.Literal .Int, ['1', '2']⟩, mkA ['1', '2', '.'] 2)) :=
  (c6_digit_maximal ['1', '2', '.'] 0 (by decide) (by decide) (by decide)).1

/-- C8 counterexample: on the finite input "aé", repeated invocation does
terminate, but it aborts with a panic instead of yielding a finite token
sequence followed by an exhaustion signal: the whole scan evaluates to
`none`, not to `some` token list. -/
theorem c8_counterexample : lex ['a', 'é'] = none := by decide

/-- C8 amended: every call of `next` that returns a token strictly
advances the cursor by at least one position, and for every finite input
the pull loop reaches its terminal outcome (exhaustion or panic) within
`utf8Len input + 2` pulls: any fuel at least that large computes the same
result as `lex`, so repeated invocation never loops forever. -/
theorem c8_termination :
    (∀ l t l2, Lexer.next l = some (some (t, l2)) →
        l.read_position < l2.read_position) ∧
    (∀ m f, utf8Len m + 2 ≤ f → (Lexer.new m).bind (run f) = lex m) :=
  ⟨fun _ _ _ h => (next_some_spec h).1, run_fuel_indep⟩

theorem c8_witness :
    (mkA ['a'] 0).read_position < (mkA ['a'] 1).read_position ∧
    (Lexer.new ['a']).bind (run 9) = lex ['a'] :=
  ⟨c8_termination.1 (mkA ['a'] 0) ⟨.Ident, ['a']⟩ (mkA ['a'] 1) (by decide),
   c8_termination.2 ['a'] 9 (by decide)⟩

/-- C9 counterexample: the input consisting of the single whitespace
character U+2028 (LINE SEPARATOR) is whitespace-only, yet scanning it
does not yield zero tokens — it panics (evaluates to `none`), because the
whitespace-skip loop reads past the character count while still inside
the byte count. -/
theorem c9_counterexample :
    rustIsWhitespace (Char.ofNat 0x2028) = true ∧
    lex [Char.ofNat 0x2028] = none ∧
    lex [Char.ofNat 0x2028] ≠ some [] := by decide

/-- C9 amended: no token the scanner ever produces — from any state —
has kind `WhiteSpace` or `Eof`; empty input yields zero tokens; and
whitespace-only input yields zero tokens whenever its characters are
one-byte (ASCII) whitespace. -/
theorem c9_no_ws_eof_tokens :
    (∀ l t l2, Lexer.next l = some (some (t, l2)) →
        t.kind ≠ .WhiteSpace ∧ t.kind ≠ .Eof) ∧
    lex [] = some [] ∧
    (∀ m, (∀ c ∈ m, rustIsWhitespace c = true ∧ c.utf8Size = 1) →
        lex m = some []) := by
  refine ⟨fun _ _ _ h => ⟨(next_some_spec h).2.2.2.1, (next_some_spec h).2.2.2.2⟩,
    by decide, fun m hws => ?_⟩
  have hm : AllOneByte m := fun c hc => (hws c hc).2
  rw [lex_ascii hm, lexRun0_all_ws (fun c hc => (hws c hc).1)]

theorem c9_witness :
    ((⟨.Ident, ['a']⟩ : Token).kind ≠ .WhiteSpace ∧
      (⟨.Ident, ['a']⟩ : Token).kind ≠ .Eof) ∧
    lex [' ', ' '] = some [] :=
  ⟨c9_no_ws_eof_tokens.1 (mkA ['a'] 0) ⟨.Ident, ['a']⟩ (mkA ['a'] 1)
    (by decide),
   c9_no_ws_eof_tokens.2.2 [' ', ' '] (by decide)⟩

/-- C10 counterexample: the input "é" followed by an embedded NUL does
not make the scanner signal exhaustion at the NUL — the scan panics
(evaluates to `none`): `read_ident` slices `input[0..1]`, and byte offset
1 falls inside the two-byte encoding of é. -/
theorem c10_counterexample :
    '\x00' ∈ ['é', '\x00'] ∧ lex ['é', '\x00'] = none := by decide

/-- C10 amended: on inputs of one-byte (ASCII) characters containing an
embedded NUL, scanning is the same as scanning the prefix before the
first NUL — the NUL acts as the past-end sentinel: the scan completes,
the NUL itself is never tokenized, and no character at or after the first
NUL appears in any token literal. -/
theorem c10_nul_truncates (m : List Char) (hm : AllOneByte m)
    (hnul : '\x00' ∈ m) :
    lex m = lex (m.takeWhile notNul) ∧
    ∃ ts, lex m = some ts ∧
      ∀ t ∈ ts, ∀ c ∈ t.literal, c ∈ m.takeWhile notNul := by
  have hm2 : AllOneByte (m.takeWhile notNul) := fun c hc =>
    hm c ((List.takeWhile_sublist notNul).subset hc)
  constructor
  · rw [lex_ascii hm, lex_ascii hm2,
      ← lexRun0_takeWhile_nul m.length m (le_refl _)]
  · refine ⟨lexRun0 m, lex_ascii hm, fun t ht c hc => ?_⟩
    rw [lexRun0_takeWhile_nul m.length m (le_refl _)] at ht
    exact lexRun0_literal_mem (m.takeWhile notNul).length _ (le_refl _)
      t ht c hc

theorem c10_witness :
    lex ['a', '\x00', 'b'] = lex (['a', '\x00', 'b'].takeWhile notNul) :=
  (c10_nul_truncates ['a', '\x00', 'b'] (by decide) (by decide)).1

end RustLexer
